import Mathlib

/-!
Verification development for the conversation stream reconciliation engine of
the `deepagent-seenos-pm` repository (frontend chat interface).

The embedding models, from the TypeScript source:
  * the phase lifecycle tracker and message-hiding logic of `processedMessages`
    (ChatInterface component),
  * the tool-call extraction and tool-result reconciliation of the same function,
  * `phaseDetails` and `subAgents` from the `ChatMessage` component,
  * the suggestion generation / validation / caching logic of `useSuggestions`.

JavaScript runtime values appearing in loosely typed positions (tool-call args,
parsed phase-marker JSON, suggestion payloads) are modelled by the `JVal` type
below.  Array and object contents are encoded as cons-chains inside `JVal`
itself (so that all functions are plain structural recursions and evaluate
inside the kernel); `JVal.arrOf` / `JVal.objOf` build such chains from lists.
JSON numbers are modelled as integers: the embedded protocol (phase markers,
suggestion arrays) only carries integers, and floating point is out of scope
for the shallow embedding.  JavaScript strict equality `===` is modelled by
structural equality on `JVal`; this is exact for the primitive values
(numbers, strings, booleans, null/undefined) that the modelled comparisons
operate on.
-/

namespace SeenosPM

/-- A JSON/JavaScript value, as produced by `JSON.parse` and stored in the
loosely typed message fields.  `anil`/`acons` encode arrays, `onil`/`ocons`
encode objects. -/
inductive JVal where
  | null
  | bool (b : Bool)
  | num (n : Int)
  | str (s : String)
  | anil
  | acons (hd : JVal) (tl : JVal)
  | onil
  | ocons (key : String) (val : JVal) (tl : JVal)
deriving DecidableEq

/-- Encode a list of values as a `JVal` array. -/
def JVal.arrOf : List JVal → JVal
  | [] => .anil
  | x :: xs => .acons x (JVal.arrOf xs)

/-- Encode a field list as a `JVal` object. -/
def JVal.objOf : List (String × JVal) → JVal
  | [] => .onil
  | (k, v) :: xs => .ocons k v (JVal.objOf xs)

/-- The elements of an encoded array (empty for non-arrays). -/
def JVal.items : JVal → List JVal
  | .acons x t => x :: t.items
  | _ => []

/-- JavaScript property access `v[key]` on an object; `none` models
`undefined` (also the result of property access on any non-object). -/
def JVal.get : JVal → String → Option JVal
  | .ocons k v t, key => if k = key then some v else t.get key
  | _, _ => none

/-- JavaScript truthiness of a value. -/
def JVal.truthy : JVal → Bool
  | .null => false
  | .bool b => b
  | .num n => n != 0
  | .str s => s != ""
  | _ => true

/-- `Array.isArray`. -/
def JVal.isArr : JVal → Bool
  | .anil => true
  | .acons _ _ => true
  | _ => false

/-! ### The phase-marker regex

Both `ChatInterface` and `ChatMessage` locate phase markers with
`content.match(/__PHASE_STATUS__(.+?)__/)` and use the first capture group.
`phaseMatch` embeds that regex: scan start positions left to right; at a
position where the literal `__PHASE_STATUS__` matches, lazily capture at
least one non-line-terminator character up to the next `__`; if the lazy
part cannot complete, resume scanning at the next start position. -/

/-- Characters matched by `.` in a JavaScript regex (everything except the
line terminators `\n`, `\r`, U+2028, U+2029). -/
def regexDot (c : Char) : Bool :=
  c ≠ '\n' && c ≠ '\r' && c ≠ Char.ofNat 0x2028 && c ≠ Char.ofNat 0x2029

/-- Lazy `(.+?)` capture followed by the literal `__`: accept the shortest
non-empty capture whose next two characters are underscores. -/
def lazyCap (acc : List Char) : List Char → Option String
  | [] => none
  | c :: rest =>
    if acc ≠ [] && c = '_' && rest.head? = some '_' then
      some (String.mk acc.reverse)
    else if regexDot c then lazyCap (c :: acc) rest
    else none

/-- Scan start positions for the full pattern. -/
def phaseMatchFrom : List Char → Option String
  | [] => none
  | c :: rest =>
    if (c :: rest).take 16 = "__PHASE_STATUS__".toList then
      match lazyCap [] ((c :: rest).drop 16) with
      | some cap => some cap
      | none => phaseMatchFrom rest
    else phaseMatchFrom rest

/-- The capture group of `content.match(/__PHASE_STATUS__(.+?)__/)`,
`none` when the regex does not match. -/
def phaseMatch (s : String) : Option String :=
  phaseMatchFrom s.toList

/-- `haystack.includes(needle)`: some start position carries `pat` as a
contiguous run. -/
def hasSub (pat : List Char) : List Char → Bool
  | [] => pat = []
  | c :: rest => (c :: rest).take pat.length = pat || hasSub pat rest

/-- `content.includes('__PHASE_STATUS__')` (the `isPhaseStatusMessage`
helper of `ChatInterface`). -/
def isPhaseStatusMessage (s : String) : Bool :=
  hasSub "__PHASE_STATUS__".toList s.toList

/-! ### JSON parsing

`JSON.parse` as used on the captured marker text and on suggestion payloads.
The parser is fuelled (fuel is a recursion-depth budget, decremented on every
recursive step, so the definition is a plain structural recursion that the
kernel can evaluate); `jsonParse` supplies ample fuel for its input.  Escapes
`\uXXXX`, floating point numbers and duplicate object keys (JavaScript keeps
the last duplicate, this parser the first) are outside the modelled fragment:
no value exercised by the claims contains them. -/

/-- JSON whitespace. -/
def jsonWs (c : Char) : Bool :=
  c = ' ' || c = '\t' || c = '\n' || c = '\r'

/-- Drop leading JSON whitespace. -/
def skipWs : List Char → List Char
  | [] => []
  | c :: rest => if jsonWs c then skipWs rest else c :: rest

/-- The JSON escape table: escape letter paired with its decoded
character. -/
def escPairs : List (Char × Char) :=
  [('"', '"'), ('\\', '\\'), ('/', '/'), ('n', '\n'), ('t', '\t'), ('r', '\r'),
   ('b', Char.ofNat 8), ('f', Char.ofNat 12)]

/-- Decode a JSON escape character via the table. -/
def escChar (c : Char) : Option Char :=
  (escPairs.find? fun p => p.1 = c).map (·.2)

/-- Parse the body of a string literal (opening quote already consumed),
returning the contents and the remaining input. -/
def parseStrChars : List Char → Option (List Char × List Char)
  | [] => none
  | '"' :: rest => some ([], rest)
  | '\\' :: e :: rest =>
    match escChar e with
    | some ch => (parseStrChars rest).map fun p => (ch :: p.1, p.2)
    | none => none
  | '\\' :: [] => none
  | c :: rest =>
    if c = '\n' || c = '\r' then none
    else (parseStrChars rest).map fun p => (c :: p.1, p.2)

/-- Parse a run of digits into a natural number (most significant first). -/
def parseDigits (acc : Nat) : List Char → Nat × List Char
  | [] => (acc, [])
  | c :: rest =>
    if c.isDigit then parseDigits (acc * 10 + (c.toNat - '0'.toNat)) rest
    else (acc, c :: rest)

/-- Parse an integer JSON number. -/
def parseIntNum : List Char → Option (Int × List Char)
  | '-' :: c :: rest =>
    if c.isDigit then
      let p := parseDigits 0 (c :: rest)
      some (-(p.1 : Int), p.2)
    else none
  | c :: rest =>
    if c.isDigit then
      let p := parseDigits 0 (c :: rest)
      some ((p.1 : Int), p.2)
    else none
  | [] => none

/-- Fuelled JSON parser.  `mode = 0` parses one value; `mode = 1` parses the
items of an array after `[` (at least one item, up to the closing `]`),
returning the encoded array chain; `mode = 2` does the same for the fields of
an object after `{`. -/
def parseF : Nat → Nat → List Char → Option (JVal × List Char)
  | 0, _, _ => none
  | fuel + 1, 0, l =>
    match skipWs l with
    | [] => none
    | '"' :: rest => (parseStrChars rest).map fun p => (.str (String.mk p.1), p.2)
    | '\x7b' :: rest =>
      match skipWs rest with
      | '\x7d' :: rest2 => some (.onil, rest2)
      | l2 => parseF fuel 2 l2
    | '[' :: rest =>
      match skipWs rest with
      | ']' :: rest2 => some (.anil, rest2)
      | l2 => parseF fuel 1 l2
    | 'n' :: 'u' :: 'l' :: 'l' :: rest => some (.null, rest)
    | 't' :: 'r' :: 'u' :: 'e' :: rest => some (.bool true, rest)
    | 'f' :: 'a' :: 'l' :: 's' :: 'e' :: rest => some (.bool false, rest)
    | l2 => (parseIntNum l2).map fun p => (.num p.1, p.2)
  | fuel + 1, 1, l =>
    match parseF fuel 0 l with
    | none => none
    | some (v, r) =>
      match skipWs r with
      | ']' :: rest => some (.acons v .anil, rest)
      | ',' :: rest =>
        match parseF fuel 1 rest with
        | some (tl, r2) => some (.acons v tl, r2)
        | none => none
      | _ => none
  | fuel + 1, _, l =>
    match skipWs l with
    | '"' :: rest =>
      match parseStrChars rest with
      | none => none
      | some (k, r) =>
        match skipWs r with
        | ':' :: r2 =>
          match parseF fuel 0 r2 with
          | none => none
          | some (v, r3) =>
            match skipWs r3 with
            | '\x7d' :: rest2 => some (.ocons (String.mk k) v .onil, rest2)
            | ',' :: rest2 =>
              match parseF fuel 2 rest2 with
              | some (tl, r4) => some (.ocons (String.mk k) v tl, r4)
              | none => none
            | _ => none
        | _ => none
    | _ => none

/-- `JSON.parse`: parse a complete value with nothing but whitespace after
it; `none` models a thrown `SyntaxError`. -/
def jsonParse (s : String) : Option JVal :=
  match parseF (2 * s.length + 2) 0 s.toList with
  | some (v, rest) => if skipWs rest = [] then some v else none
  | none => none

/-! ### The message data model

Messages come from the LangGraph SDK stream.  The fields consumed by the
embedded code are `type`, `id`, `content` (string or block array),
`additional_kwargs.tool_calls`, `tool_calls` and `tool_call_id`.  `Option`
on the two tool-call arrays distinguishes an absent (or non-array) field from
a present-but-empty array — the source treats these differently during
extraction. -/

/-- `message.type`: `ai`, `human`, `tool`, or any other stream type (which
`processedMessages` ignores). -/
inductive MType where
  | ai
  | human
  | tool
  | other
deriving DecidableEq

/-- One entry of a raw tool-call array (`additional_kwargs.tool_calls` or
`tool_calls`), or an inline `tool_use` content block: the optional-field
shape probed by `processedMessages`. -/
structure RawToolCall where
  id : Option String
  funcName : Option String
  funcArguments : Option JVal
  name : Option String
  btype : Option String
  args : Option JVal
  input : Option JVal
deriving DecidableEq

/-- An entry of a block-array `content`: a `type` tag plus the fields read
from `text` and `tool_use` blocks. -/
structure ContentBlock where
  btype : String
  text : Option String
  id : Option String
  name : Option String
  input : Option JVal
deriving DecidableEq

/-- `message.content`: a plain string or an ordered block array. -/
inductive MsgContent where
  | str (s : String)
  | blocks (bs : List ContentBlock)
deriving DecidableEq

/-- One stream message, restricted to the fields the embedded code reads. -/
structure Message where
  id : String
  mtype : MType
  content : MsgContent
  addKwToolCalls : Option (List RawToolCall)
  toolCalls : Option (List RawToolCall)
  toolCallId : Option String
deriving DecidableEq

/-- A text-only agent message (the common case in the scenarios). -/
def aiText (id text : String) : Message :=
  ⟨id, .ai, .str text, none, none, none⟩

/-- Modelled from the spec: the Content Normalizer
(`extractStringFromMessageContent` from the frontend `utils` module, which is
not present under `src/`).  Per spec §4.1: a string content is returned
unchanged; a block array contributes the text of its `text`-typed blocks
concatenated in order; other blocks contribute nothing; unknown/malformed
shapes normalize to the empty string. -/
def extractString : MsgContent → String
  | .str s => s
  | .blocks bs =>
    String.join (bs.filterMap fun b =>
      if b.btype = "text" then some (b.text.getD "") else none)

/-! ### Phase lifecycle tracker (`processedMessages`, first half)

Embeds the first half of the `processedMessages` memo of `ChatInterface`:
collect phase records from agent messages, form the set of completed phases,
pair each completed phase's `started`/`completed` indices (last record of
each status wins, mirroring the source's overwriting `forEach`), and build
the skip set. -/

/-- The record stored in `phaseStatusIndices`: the `phase` and `status`
properties of the parsed marker JSON (`none` models `undefined`). -/
structure PhaseRec where
  phase : Option JVal
  status : Option JVal
deriving DecidableEq

/-- Parse one agent message's text into a phase record, mirroring the
guarded `match`/`JSON.parse` in the first pass.  Property access on a parsed
`null` throws inside the `try`, so such markers are skipped, like parse
failures. -/
def phaseRecordOf (content : String) : Option PhaseRec :=
  if isPhaseStatusMessage content then
    match phaseMatch content with
    | some cap =>
      match jsonParse cap with
      | some .null => none
      | some v => some ⟨v.get "phase", v.get "status"⟩
      | none => none
    | none => none
  else none

/-- `phaseStatusIndices` as an index-sorted association list: the message
index paired with the parsed record, for every agent message whose text
parses as a phase marker. -/
def phaseRecords (msgs : List Message) : List (Nat × PhaseRec) :=
  msgs.enum.filterMap fun p =>
    if p.2.mtype = .ai then (phaseRecordOf (extractString p.2.content)).map (p.1, ·)
    else none

/-- `Set.add`: append if not already present. -/
def setAdd (l : List (Option JVal)) (x : Option JVal) : List (Option JVal) :=
  if x ∈ l then l else l ++ [x]

/-- `completedPhases`: the distinct `phase` values of records whose `status`
is `"completed"`, in first-insertion order. -/
def completedPhases (msgs : List Message) : List (Option JVal) :=
  (phaseRecords msgs).foldl
    (fun acc p => if p.2.status = some (.str "completed") then setAdd acc p.2.phase else acc)
    []

/-- One step of the started/completed index search: a later matching record
overwrites the index found so far (the source's `forEach` with `-1`
sentinels). -/
def pairStep (v : Option JVal) (si : Option Nat × Option Nat) (p : Nat × PhaseRec) :
    Option Nat × Option Nat :=
  if p.2.phase = v then
    if p.2.status = some (.str "started") then (some p.1, si.2)
    else if p.2.status = some (.str "completed") then (si.1, some p.1)
    else si
  else si

/-- The `startedIndex`/`completedIndex` pair computed for phase value `v`. -/
def findPair (recs : List (Nat × PhaseRec)) (v : Option JVal) :
    Option Nat × Option Nat :=
  recs.foldl (pairStep v) (none, none)

/-- The `hasToolCalls` test of the hiding loop: a non-empty
`additional_kwargs.tool_calls` array, a non-empty `tool_calls` array, or a
`tool_use` block in an array-valued `content`. -/
def rawHasToolCalls (m : Message) : Bool :=
  (match m.addKwToolCalls with
   | some l => decide (0 < l.length)
   | none => false)
  || (match m.toolCalls with
      | some l => decide (0 < l.length)
      | none => false)
  || (match m.content with
      | .blocks bs => bs.any fun b => b.btype = "tool_use"
      | .str _ => false)

/-- Whether index `j` is hidden by the inner loop: an agent message without
tool calls. -/
def hideAt (msgs : List Message) (j : Nat) : Bool :=
  match msgs.get? j with
  | some m => m.mtype = .ai && !rawHasToolCalls m
  | none => false

/-- The skip indices contributed by one completed phase value: the started
marker itself plus every hideable index strictly between the started and
completed indices (nothing when either index is missing; the in-between
range is empty when the completed index does not exceed the started one). -/
def phaseSkips (msgs : List Message) (recs : List (Nat × PhaseRec)) (v : Option JVal) :
    List Nat :=
  match findPair recs v with
  | (some s, some c) => s :: (List.range' (s + 1) (c - (s + 1))).filter (hideAt msgs)
  | _ => []

/-- `skipIndices` (as a list; only membership is consumed downstream). -/
def skipList (msgs : List Message) : List Nat :=
  (completedPhases msgs).flatMap (phaseSkips msgs (phaseRecords msgs))

/-- The messages surviving the skip filter, in stream order. -/
def visibleMessages (msgs : List Message) : List Message :=
  (msgs.enum.filter fun p => !(skipList msgs).contains p.1).map (·.2)

/-! ### Tool-call correlator (`processedMessages`, second half)

Embeds the `messageMap` construction: one pass over the unskipped messages;
agent (and human) messages insert an entry keyed by message id into an
insertion-ordered map; `tool` messages complete the first matching tool call
across all entries so far. -/

/-- Status of a derived tool call.  The source only ever assigns `pending`,
`interrupted` and `completed`; the remaining TypeScript union members are
included for completeness. -/
inductive TStatus where
  | pending
  | interrupted
  | completed
  | error
  | active
deriving DecidableEq

/-- A derived ToolCall.  `id = none` models the `tool-${Math.random()}`
fallback id assigned when the raw call has no (truthy) id: a fresh random
string, which matches no `tool_call_id` (and is stable across re-derivation
only up to that non-matching property, which is all the code observes). -/
structure DToolCall where
  id : Option String
  name : String
  args : JVal
  status : TStatus
  result : Option String
deriving DecidableEq

/-- JavaScript `a || b` on optional strings (an empty string is falsy). -/
def strOr (a : Option String) (b : Option String) : Option String :=
  match a with
  | some s => if s = "" then b else some s
  | none => b

/-- JavaScript `a || b` where `a` is an optional value and `b` a value. -/
def jvalOr (a : Option JVal) (b : JVal) : JVal :=
  match a with
  | some v => if v.truthy then v else b
  | none => b

/-- `toolCall.function?.name || toolCall.name || toolCall.type || "unknown"`
(each `||` defers on a falsy — absent or empty — operand, so an empty-string
type tag still falls through to `"unknown"`). -/
def resolveName (tc : RawToolCall) : String :=
  (strOr tc.funcName (strOr tc.name (strOr tc.btype (some "unknown")))).getD "unknown"

/-- `toolCall.function?.arguments || toolCall.args || toolCall.input || {}`. -/
def resolveArgs (tc : RawToolCall) : JVal :=
  jvalOr tc.funcArguments (jvalOr tc.args (jvalOr tc.input .onil))

/-- A `tool_use` content block viewed as a raw tool call (the block object is
pushed into `toolCallsInMessage` as-is). -/
def blockToRaw (b : ContentBlock) : RawToolCall :=
  ⟨b.id, none, none, b.name, some b.btype, none, b.input⟩

/-- The raw tool-call list extracted from an agent message: the first
*present* array-valued shape wins (`additional_kwargs.tool_calls`, then
`tool_calls` filtered to entries whose `name` is not the empty string, then
the `tool_use` blocks of an array-valued `content`). -/
def toolCallsInMessage (m : Message) : List RawToolCall :=
  match m.addKwToolCalls with
  | some l => l
  | none =>
    match m.toolCalls with
    | some l => l.filter fun tc => tc.name ≠ some ""
    | none =>
      match m.content with
      | .blocks bs => (bs.filter fun b => b.btype = "tool_use").map blockToRaw
      | .str _ => []

/-- `toolCallsWithStatus`: the derived ToolCalls of an agent message, with
initial status `interrupted` when an approval interrupt is open, else
`pending`.  A falsy raw id yields the random fallback id (`none`). -/
def deriveToolCalls (interrupt : Bool) (m : Message) : List DToolCall :=
  (toolCallsInMessage m).map fun tc =>
    { id := match tc.id with
            | some s => if s = "" then none else some s
            | none => none
      name := resolveName tc
      args := resolveArgs tc
      status := if interrupt then .interrupted else .pending
      result := none }

/-- One `messageMap` entry. -/
structure Entry where
  message : Message
  toolCalls : List DToolCall
deriving DecidableEq

/-- The `messageMap` state: an insertion-ordered association list (JavaScript
`Map` semantics: `set` on an existing key updates in place and keeps the
original position, otherwise appends). -/
abbrev EState := List (String × Entry)

/-- `messageMap.set`. -/
def setEntry : EState → String → Entry → EState
  | [], k, e => [(k, e)]
  | (k0, e0) :: tl, k, e =>
    if k0 = k then (k, e) :: tl else (k0, e0) :: setEntry tl k e

/-- Complete the first tool call of a list whose `id` equals the result
reference, attaching the result text; `none` when no call matches. -/
def completeFirst (ref txt : String) : List DToolCall → Option (List DToolCall)
  | [] => none
  | tc :: tl =>
    if tc.id = some ref then
      some ({ tc with status := .completed, result := some txt } :: tl)
    else (completeFirst ref txt tl).map (tc :: ·)

/-- The `tool` branch: walk the map entries in insertion order, update the
first entry containing a matching call, and stop (`break`); a reference that
matches nothing leaves the state unchanged. -/
def applyToolResult : EState → String → String → EState
  | [], _, _ => []
  | (k, e) :: tl, ref, txt =>
    match completeFirst ref txt e.toolCalls with
    | some tcs => (k, { e with toolCalls := tcs }) :: tl
    | none => (k, e) :: applyToolResult tl ref txt

/-- One step of the `messages.forEach` over an unskipped message. -/
def procStep (interrupt : Bool) (st : EState) (m : Message) : EState :=
  match m.mtype with
  | .ai => setEntry st m.id ⟨m, deriveToolCalls interrupt m⟩
  | .tool =>
    match m.toolCallId with
    | some ref => if ref = "" then st else applyToolResult st ref (extractString m.content)
    | none => st
  | .human => setEntry st m.id ⟨m, []⟩
  | .other => st

/-- The fully built `messageMap` for a message list and interrupt state. -/
def processedMap (msgs : List Message) (interrupt : Bool) : EState :=
  (visibleMessages msgs).foldl (procStep interrupt) []

/-- One element of the `processedMessages` array. -/
structure ProcessedMessage where
  message : Message
  toolCalls : List DToolCall
  showAvatar : Bool
deriving DecidableEq

/-- `processedMessages`: the map's values in insertion order, with the
avatar flag set where the message type differs from its predecessor's. -/
def processedMessages (msgs : List Message) (interrupt : Bool) : List ProcessedMessage :=
  let arr := (processedMap msgs interrupt).map (·.2)
  arr.enum.map fun p =>
    ⟨p.2.message, p.2.toolCalls,
     match p.1 with
     | 0 => true
     | i + 1 => decide (((arr.get? i).map (·.message.mtype)) ≠ some p.2.message.mtype)⟩

/-! ### `ChatMessage`: phase detail reconstruction and sub-agent projection -/

/-- `parsePhaseStatus` from `ChatMessage`: the regex capture fed to
`JSON.parse`; `none` models the `null` returned on a missed match or a parse
error (a parsed JSON `null` is `some .null`, which is falsy wherever the
component tests it). -/
def parsePhaseStatusCM (s : String) : Option JVal :=
  (phaseMatch s).bind jsonParse

/-- Truthiness of a possibly-undefined value. -/
def optTruthy : Option JVal → Bool
  | some v => v.truthy
  | none => false

/-- The test of the backward `started` search at index `i`:
`status && status.phase === phaseStatus.phase && status.status === 'started'`
(any message type qualifies; the loop does not filter on `type`). -/
def startedCheckAt (msgs : List Message) (ph : Option JVal) (i : Nat) : Bool :=
  match msgs.get? i with
  | some m =>
    match parsePhaseStatusCM (extractString m.content) with
    | some st => st.truthy && st.get "phase" = ph && st.get "status" = some (.str "started")
    | none => false
  | none => false

/-- The backward scan `for (let i = c - 1; i >= 0; i--)`: the largest index
below the bound passing `startedCheckAt`. -/
def findStartedBefore (msgs : List Message) (ph : Option JVal) : Nat → Option Nat
  | 0 => none
  | i + 1 => if startedCheckAt msgs ph i then some i else findStartedBefore msgs ph i

/-- `content.trim()`: strip whitespace from both ends (implemented over the
character list so the kernel can evaluate it). -/
def jsTrim (s : String) : String :=
  String.mk (((s.toList.dropWhile Char.isWhitespace).reverse.dropWhile
    Char.isWhitespace).reverse)

/-- The detail texts collected strictly between the started and completed
indices: agent messages whose text is not a (truthy) phase marker and has
non-empty trimmed content. -/
def detailTexts (msgs : List Message) (s c : Nat) : List String :=
  (List.range' (s + 1) (c - (s + 1))).filterMap fun i =>
    match msgs.get? i with
    | some m =>
      if m.mtype = .ai then
        let content := extractString m.content
        if !optTruthy (parsePhaseStatusCM content) && jsTrim content ≠ "" then some content
        else none
      else none
    | none => none

/-- The `phaseDetails` memo of `ChatMessage`: for a completed phase marker
message, the blank-line join of the detail texts of its backward-paired
range, `none` when the message is not a completed marker, no `started`
marker precedes it, or no text was collected. -/
def phaseDetails (allMessages : List Message) (message : Message) : Option String :=
  let phaseStatus :=
    if message.mtype = .human then none
    else parsePhaseStatusCM (extractString message.content)
  match phaseStatus with
  | none => none
  | some pv =>
    if !pv.truthy then none
    else if pv.get "status" ≠ some (.str "completed") then none
    else if allMessages.length = 0 then none
    else
      match allMessages.findIdx? (fun m => m.id = message.id) with
      | none => none
      | some c =>
        match findStartedBefore allMessages (pv.get "phase") c with
        | none => none
        | some s =>
          let texts := detailTexts allMessages s c
          if 0 < texts.length then some (String.intercalate "\n\n" texts) else none

/-- The sub-agent view model (`SubAgent`).  The source stores
`output: { result: toolCall.result }` when the result is truthy; the wrapper
object is presentational, so `output` here carries the result string
itself. -/
structure SubAgent where
  id : Option String
  name : String
  subAgentName : JVal
  input : JVal
  output : Option String
  status : TStatus
deriving DecidableEq

/-- The `subAgents` filter: a `task` call whose `subagent_type` argument is
truthy, not the empty string and not `null`. -/
def subAgentFilter (tc : DToolCall) : Bool :=
  tc.name = "task" && optTruthy (tc.args.get "subagent_type")
    && tc.args.get "subagent_type" ≠ some (.str "")
    && tc.args.get "subagent_type" ≠ some .null

/-- The `subAgents` map step.  (`getD .null` is never exercised after the
filter, which requires the argument to be present.) -/
def toSubAgent (tc : DToolCall) : SubAgent :=
  ⟨tc.id, tc.name, (tc.args.get "subagent_type").getD .null, tc.args,
   match tc.result with
   | some r => if r = "" then none else some r
   | none => none,
   tc.status⟩

/-- The `subAgents` memo of `ChatMessage`: a pure projection of the
message's derived ToolCall list. -/
def subAgents (toolCalls : List DToolCall) : List SubAgent :=
  (toolCalls.filter subAgentFilter).map toSubAgent

/-! ### Suggestion manager (`useSuggestions`)

Embeds `generateSuggestionsWithLLM` (validation and fallback),
`getCachedSuggestions` / `saveSuggestionsToCache` (the localStorage cache,
modelled as the parsed insertion-ordered key/value map it round-trips
through JSON — suggestion sets survive that round trip verbatim), and the
cache-miss path of `loadSuggestions`. -/

/-- A follow-up suggestion. -/
structure Suggestion where
  short : String
  full : String
deriving DecidableEq

/-- The fixed built-in default suggestion set. -/
def DEFAULT_SUGGESTIONS : List Suggestion := [
  ⟨"Research this",
   "Please help me conduct thorough research on this topic. I\x27d like you to explore multiple perspectives, gather relevant data and statistics, identify key experts and sources, and provide a comprehensive overview of the current state of knowledge in this area."⟩,
  ⟨"Summarize points",
   "Please summarize the key points from our conversation so far. Highlight the most important insights, decisions made, action items identified, and any outstanding questions that still need to be addressed. Organize the summary in a clear and structured format."⟩,
  ⟨"Next steps",
   "Based on our discussion, what are the recommended next steps I should take? Please provide a prioritized list of actions with clear explanations for each, including any dependencies, estimated effort, and potential risks or considerations I should be aware of."⟩,
  ⟨"Explain details",
   "Please explain this concept in more detail. Break it down into simpler components, provide relevant examples and analogies, clarify any technical terms, and help me understand both the fundamentals and the nuances of this topic."⟩,
  ⟨"Create plan",
   "Help me create a comprehensive plan for this project or goal. Include clear objectives, milestones, timelines, resource requirements, potential challenges and mitigation strategies, and success metrics. Structure the plan in phases if appropriate."⟩,
  ⟨"Find related",
   "Please help me find related information, resources, and connections to this topic. Identify relevant articles, studies, tools, communities, or experts that could provide additional insights. Explain how each resource relates to my current needs."⟩,
  ⟨"Compare options",
   "Please compare the different options or approaches we\x27ve discussed. Create a structured comparison covering pros and cons, costs and benefits, risks and opportunities, and provide a recommendation based on the specific criteria and constraints of my situation."⟩,
  ⟨"Generate ideas",
   "Help me brainstorm and generate creative ideas for this challenge. Think outside the box, consider unconventional approaches, draw inspiration from different domains, and provide a diverse range of options from practical to innovative solutions."⟩,
  ⟨"Review improve",
   "Please review what we have so far and suggest improvements. Identify areas that could be strengthened, point out any gaps or inconsistencies, recommend specific enhancements, and help me elevate the quality and effectiveness of this work."⟩,
  ⟨"Key questions",
   "What are the most important questions I should be asking about this topic or situation? Help me identify blind spots, critical considerations I might have missed, and the key inquiries that will lead to better understanding and decision-making."⟩,
  ⟨"Identify issues",
   "Please help me identify potential issues, risks, or problems that could arise. Consider technical, practical, and strategic perspectives. For each issue identified, suggest possible mitigation strategies or preventive measures I could implement."⟩,
  ⟨"Best practices",
   "What are the industry best practices and proven approaches for this type of situation? Share relevant frameworks, methodologies, and lessons learned from successful implementations. Help me understand what separates good execution from great execution."⟩,
  ⟨"Simplify this",
   "Please help me simplify this concept or process. Break it down into its most essential components, remove unnecessary complexity, and present it in a way that is easier to understand and implement. Focus on clarity and accessibility."⟩,
  ⟨"Provide examples",
   "Please provide concrete examples that illustrate this concept or approach. Include real-world scenarios, case studies, or practical demonstrations that help me understand how this applies in different contexts and situations."⟩,
  ⟨"Analyze deeper",
   "Help me analyze this topic more deeply. Look beyond the surface level, examine underlying patterns and relationships, consider different angles and perspectives, and provide insights that reveal the deeper significance and implications."⟩,
  ⟨"Create checklist",
   "Please create a comprehensive checklist for this task or project. Include all the essential steps, important considerations, quality checks, and verification points that I should address to ensure thorough and successful completion."⟩,
  ⟨"Suggest tools",
   "What tools, technologies, or resources would you recommend for this task? Please provide specific suggestions with brief explanations of why each tool is suitable, including any alternatives and considerations for different use cases."⟩,
  ⟨"Estimate effort",
   "Help me estimate the time, resources, and effort required for this task or project. Consider different scenarios, identify factors that could affect the timeline, and provide realistic expectations along with any assumptions made."⟩,
  ⟨"Explore alternatives",
   "Please explore alternative approaches or solutions to this problem. Present different options I might not have considered, compare their trade-offs, and help me understand which alternatives might work best under different circumstances."⟩,
  ⟨"Validate approach",
   "Please help me validate this approach or solution. Review the logic and assumptions, identify potential weaknesses or blind spots, suggest improvements, and confirm whether this is a sound and viable path forward."⟩]

/-- One step of JavaScript `full.split(/\s+/)`: `sep` records whether the
scanner is inside a whitespace run. -/
def splitWsGo : List Char → List Char → Bool → List String
  | [], cur, _ => [String.mk cur.reverse]
  | c :: rest, cur, false =>
    if c.isWhitespace then String.mk cur.reverse :: splitWsGo rest [] true
    else splitWsGo rest (c :: cur) false
  | c :: rest, cur, true =>
    if c.isWhitespace then splitWsGo rest cur true
    else splitWsGo rest [c] false

/-- JavaScript `s.split(/\s+/)`: pieces between maximal whitespace runs
(leading/trailing runs contribute empty pieces, and the empty string yields
one empty piece, exactly as in JavaScript). -/
def jsSplitWs (s : String) : List String :=
  splitWsGo s.toList [] false

/-- The outcome of one suggestion-generation call, enumerating the branch
conditions of `generateSuggestionsWithLLM`: no usable API key, a provider
without direct-API support (Anthropic/Google), a thrown `fetch`, a non-OK
HTTP status, a missing/empty `choices[0].message.content`, a content whose
markdown/JSON extraction fails to parse, or a parsed JSON value. -/
inductive GenResponse where
  | noApiKey
  | unsupportedProvider
  | transportError
  | httpError
  | emptyContent
  | parseFailure
  | parsed (v : JVal)

/-- The per-item validation filter: an object with string `short` and
`full` whose `full` splits into at least 15 whitespace-delimited tokens. -/
def validSuggestionItem (v : JVal) : Bool :=
  match v.get "short", v.get "full" with
  | some (.str _), some (.str f) => decide (15 ≤ (jsSplitWs f).length)
  | _, _ => false

/-- The per-item cleanup map: `short` truncated to 30 characters, `full`
kept. -/
def toSuggestion (v : JVal) : Suggestion :=
  ⟨(match v.get "short" with
    | some (.str s) => s.take 30
    | _ => ""),
   (match v.get "full" with
    | some (.str f) => f
    | _ => "")⟩

/-- `generateSuggestionsWithLLM`: validate a parsed non-empty array, keep at
most 20 valid items, and return them when at least 3 survive; every other
outcome falls back to the fixed defaults.  Total — no outcome escapes as an
error. -/
def generateSuggestionsWithLLM : GenResponse → List Suggestion
  | .parsed v =>
    if v.isArr && 0 < v.items.length then
      let valid := ((v.items.filter validSuggestionItem).take 20).map toSuggestion
      if 3 ≤ valid.length then valid else DEFAULT_SUGGESTIONS
    else DEFAULT_SUGGESTIONS
  | _ => DEFAULT_SUGGESTIONS

/-- The parsed suggestion cache: a JavaScript object, i.e. an
insertion-ordered key/value list with unique keys. -/
abbrev CacheMap := List (String × List Suggestion)

/-- JavaScript object assignment `cacheMap[key] = v`: update in place when
the key exists (keeping its position), else append. -/
def objSet : CacheMap → String → List Suggestion → CacheMap
  | [], k, v => [(k, v)]
  | (k0, v0) :: tl, k, v =>
    if k0 = k then (k, v) :: tl else (k0, v0) :: objSet tl k v

/-- `getCachedSuggestions`: the value stored under the key, `none` when
absent. -/
def getCachedSuggestions (key : String) (m : CacheMap) : Option (List Suggestion) :=
  match m with
  | [] => none
  | (k0, v0) :: tl => if k0 = key then some v0 else getCachedSuggestions key tl

/-- `saveSuggestionsToCache`: store the set under the key, then delete the
oldest keys while more than 50 entries remain. -/
def saveSuggestionsToCache (key : String) (v : List Suggestion) (m : CacheMap) : CacheMap :=
  let m2 := objSet m key v
  let keys := m2.map (·.1)
  if 50 < keys.length then
    let rem := keys.take (keys.length - 50)
    m2.filter fun p => !rem.contains p.1
  else m2

/-- The cache-miss slice of `loadSuggestions`: a cached set is returned
as-is; otherwise the generation outcome (which cannot throw) is persisted
under the miss key before being returned. -/
def loadSuggestions (cache : CacheMap) (key : String) (resp : GenResponse) :
    List Suggestion × CacheMap :=
  match getCachedSuggestions key cache with
  | some cs => (cs, cache)
  | none =>
    let newS := generateSuggestionsWithLLM resp
    (newS, saveSuggestionsToCache key newS cache)

end SeenosPM


namespace SeenosPM


/-! ### Spec-side definitions and concrete scenario inputs

`firstNonEmptyShape` and `lastIdxWith` are declarative companions used to
compare the source's behavior with the spec's wording; the `ex…` message
lists are the concrete inputs of the counterexamples and witnesses. -/

/-- Following the spec's words for the extraction priority ("if more than
one is non-empty, the first non-empty shape wins"): the first NON-EMPTY of
the three legacy shapes, each extracted as the source extracts that
shape. -/
def firstNonEmptyShape (m : Message) : Option (List RawToolCall) :=
  let s1 := m.addKwToolCalls.getD []
  let s2 := m.toolCalls.getD []
  let s3 := match m.content with
            | .blocks bs => (bs.filter fun b => b.btype = "tool_use").map blockToRaw
            | .str _ => []
  if s1 ≠ [] then some s1
  else if s2 ≠ [] then some s2
  else if s3 ≠ [] then some s3
  else none

/-- The index of the LAST record of a phase value with the given status, as
a declarative characterization of the source's overwriting search. -/
def lastIdxWith (recs : List (Nat × PhaseRec)) (v : Option JVal) (st : String) :
    Option Nat :=
  ((recs.filter fun p =>
      decide (p.2.phase = v) && decide (p.2.status = some (.str st))).map (·.1)).getLast?

/-- A string whose only (JavaScript-falsy) value is absent or empty. -/
def strFalsy (o : Option String) : Prop :=
  o = none ∨ o = some ""

/-- A value field that is absent or falsy. -/
def jvFalsy (o : Option JVal) : Prop :=
  match o with
  | none => True
  | some v => v.truthy = false

/-- A `started` phase marker message. -/
def startedMarker (id : String) (ph : Nat) : Message :=
  aiText id ("__PHASE_STATUS__\x7b\"phase\":" ++ toString ph ++ ",\"status\":\"started\"\x7d__")

/-- A `completed` phase marker message. -/
def completedMarker (id : String) (ph : Nat) : Message :=
  aiText id ("__PHASE_STATUS__\x7b\"phase\":" ++ toString ph ++ ",\"status\":\"completed\"\x7d__")

/-- An `error` phase marker message. -/
def errorMarker (id : String) (ph : Nat) : Message :=
  aiText id ("__PHASE_STATUS__\x7b\"phase\":" ++ toString ph ++ ",\"status\":\"error\"\x7d__")

/-- A completion that precedes its phase's start. -/
def exC1a : List Message := [completedMarker "a0" 1, startedMarker "a1" 1]

/-- Two started/completed rounds of the same phase. -/
def exC1b : List Message :=
  [startedMarker "b0" 1, completedMarker "b1" 1, startedMarker "b2" 1, completedMarker "b3" 1]

/-- A phase that ends in an `error` record. -/
def exC1err : List Message := [startedMarker "e0" 1, errorMarker "e1" 1]

/-- A raw tool call whose `name` field is the empty string. -/
def rawEmptyName : RawToolCall := ⟨some "t9", none, none, some "", none, none, none⟩

/-- The in-between agent message of `exC2`: its raw `tool_calls` array is
non-empty, but every entry is dropped by the extraction filter. -/
def exC2m1 : Message := ⟨"c1", .ai, .str "narrative", none, some [rawEmptyName], none⟩

/-- A completed phase whose only in-between agent message carries a raw
tool-call entry with an empty name. -/
def exC2 : List Message := [startedMarker "c0" 1, exC2m1, completedMarker "c2" 1]

/-- A plain raw tool call named `search`. -/
def rawSearch : RawToolCall := ⟨some "t1", none, none, some "search", none, none, none⟩

/-- A message with a present-but-empty `additional_kwargs.tool_calls` array
and a non-empty `tool_calls` array. -/
def mC4 : Message := ⟨"d0", .ai, .str "", some [], some [rawSearch], none⟩

/-- A message used to exercise extraction from `additional_kwargs`. -/
def mC4w : Message := ⟨"w0", .ai, .str "", some [rawSearch], none, none⟩

/-- The agent message issuing `t1` in `exC3`. -/
def exC3m1 : Message := ⟨"m1", .ai, .str "", some [rawSearch], none, none⟩

/-- An agent tool call followed by two results for the same reference. -/
def exC3 : List Message :=
  [exC3m1,
   ⟨"m2", .tool, .str "r1", none, none, some "t1"⟩,
   ⟨"m3", .tool, .str "r2", none, none, some "t1"⟩]

/-- The in-between agent message of `exC6`: it carries a tool call (so it
stays visible) and narrative text. -/
def exC6m1 : Message := ⟨"f1", .ai, .str "used tool", none, some [rawSearch], none⟩

/-- The completed marker of `exC6`. -/
def exC6m2 : Message := completedMarker "f2" 1

/-- A completed phase whose only in-between agent message is visible tool
evidence. -/
def exC6 : List Message := [startedMarker "f0" 1, exC6m1, exC6m2]

/-- The completed marker of Scenario A. -/
def scenAm3 : Message :=
  aiText "m3" "__PHASE_STATUS__\x7b\"phase\":1,\"status\":\"completed\",\"summary\":\"done\"\x7d__"

/-- Scenario A of the spec: human greeting, phase 1 started, narrative,
phase 1 completed. -/
def scenA : List Message :=
  [⟨"m0", .human, .str "hi", none, none, none⟩,
   startedMarker "m1" 1,
   aiText "m2" "working...",
   scenAm3]

/-! ### Masks for the idempotence proof (C5)

The reconciliation fold only ever changes the `status` and `result` of tool
calls; everything else — keys, key order, messages, tool-call ids, names and
args — is the "mask", which tool-result steps preserve. -/

/-- The write-invariant part of a tool call. -/
def maskCall (tc : DToolCall) : Option String × String × JVal :=
  (tc.id, tc.name, tc.args)

/-- The write-invariant part of an entry. -/
def maskEntry (e : Entry) : Message × List (Option String × String × JVal) :=
  (e.message, e.toolCalls.map maskCall)

/-- The write-invariant part of a state. -/
def maskState (st : EState) : List (String × (Message × List (Option String × String × JVal))) :=
  st.map fun p => (p.1, maskEntry p.2)

/-- The key list of a state. -/
def stKeys (st : EState) : List String :=
  st.map (·.1)

/-- Whether some entry of the state holds a tool call with the given id. -/
def stHasMatch (st : EState) (ref : String) : Bool :=
  st.any fun p => p.2.toolCalls.any fun tc => decide (tc.id = some ref)

/-! ## Claim C7: suggestion generation never fails and validates its output -/

/-- C7: the suggestion generation call is total (it never surfaces an error):
for every outcome it returns either a validated batch — at least 3 and at
most 20 items, each with a `full` text splitting into at least 15
whitespace-delimited tokens — or the fixed default SuggestionSet, which has
exactly 20 entries.  Every non-success branch (unsupported provider, missing
key, transport failure, HTTP error, malformed or short response, fewer than
3 valid items) lands in the second disjunct. -/
theorem generate_suggestions_validated_or_default (r : GenResponse) :
    (3 ≤ (generateSuggestionsWithLLM r).length ∧
     (generateSuggestionsWithLLM r).length ≤ 20 ∧
     ∀ s ∈ generateSuggestionsWithLLM r, 15 ≤ (jsSplitWs s.full).length) ∨
    (generateSuggestionsWithLLM r = DEFAULT_SUGGESTIONS ∧
     DEFAULT_SUGGESTIONS.length = 20) := by
  have hdef : DEFAULT_SUGGESTIONS.length = 20 := by decide
  cases r with
  | parsed v =>
    have hout : generateSuggestionsWithLLM (.parsed v) =
        if v.isArr && decide (0 < v.items.length) then
          if 3 ≤ (((v.items.filter validSuggestionItem).take 20).map toSuggestion).length then
            ((v.items.filter validSuggestionItem).take 20).map toSuggestion
          else DEFAULT_SUGGESTIONS
        else DEFAULT_SUGGESTIONS := rfl
    by_cases harr : (v.isArr && decide (0 < v.items.length)) = true
    · by_cases hvalid :
        3 ≤ (((v.items.filter validSuggestionItem).take 20).map toSuggestion).length
      · left
        rw [hout, if_pos harr, if_pos hvalid]
        refine ⟨hvalid, ?_, ?_⟩
        · rw [List.length_map]
          exact List.length_take_le 20 (v.items.filter validSuggestionItem)
        · intro s hs
          obtain ⟨x, hx, hxs⟩ := List.mem_map.mp hs
          have hxv : validSuggestionItem x = true :=
            (List.mem_filter.mp (List.mem_of_mem_take hx)).2
          unfold validSuggestionItem at hxv
          subst hxs
          unfold toSuggestion
          cases hshort : x.get "short" with
          | none => rw [hshort] at hxv; simp at hxv
          | some a =>
            cases hfull : x.get "full" with
            | none => rw [hshort, hfull] at hxv; simp at hxv
            | some b =>
              rw [hshort, hfull] at hxv
              cases a <;> cases b <;> simp_all
      · right
        rw [hout, if_pos harr, if_neg hvalid]
        exact ⟨rfl, hdef⟩
    · right
      rw [hout, if_neg harr]
      exact ⟨rfl, hdef⟩
  | noApiKey => exact Or.inr ⟨rfl, hdef⟩
  | unsupportedProvider => exact Or.inr ⟨rfl, hdef⟩
  | transportError => exact Or.inr ⟨rfl, hdef⟩
  | httpError => exact Or.inr ⟨rfl, hdef⟩
  | emptyContent => exact Or.inr ⟨rfl, hdef⟩
  | parseFailure => exact Or.inr ⟨rfl, hdef⟩

end SeenosPM

namespace SeenosPM

/-- Witness for C7 at a concrete failing outcome. -/
theorem generate_suggestions_validated_or_default_witness :
    (generateSuggestionsWithLLM .transportError).length ≤ 20 := by
  rcases generate_suggestions_validated_or_default .transportError with ⟨_, h, _⟩ | ⟨heq, hlen⟩
  · exact h
  · rw [heq, hlen]

/-! ## Cache lemmas shared by C8 and C10 -/

/-- `objSet` on a fresh key appends. -/
theorem objSet_not_mem (m : CacheMap) (k : String) (v : List Suggestion)
    (h : k ∉ m.map (·.1)) : objSet m k v = m ++ [(k, v)] := by
  induction m with
  | nil => rfl
  | cons p tl ih =>
    simp only [List.map_cons, List.mem_cons] at h
    push_neg at h
    simp only [objSet, if_neg (Ne.symm h.1), List.cons_append]
    rw [ih h.2]

/-- `objSet` keeps the key list when the key is present. -/
theorem objSet_keys_mem (m : CacheMap) (k : String) (v : List Suggestion)
    (h : k ∈ m.map (·.1)) : (objSet m k v).map (·.1) = m.map (·.1) := by
  induction m with
  | nil => simp at h
  | cons p tl ih =>
    simp only [List.map_cons, List.mem_cons] at h
    by_cases hk : p.1 = k
    · simp [objSet, hk]
    · rcases h with h | h
      · exact absurd h.symm hk
      · simp only [objSet, if_neg hk, List.map_cons]
        rw [ih h]

/-- `getCachedSuggestions` after `objSet` under the same key. -/
theorem get_objSet (m : CacheMap) (k : String) (v : List Suggestion) :
    getCachedSuggestions k (objSet m k v) = some v := by
  induction m with
  | nil => simp [objSet, getCachedSuggestions]
  | cons p tl ih =>
    by_cases hk : p.1 = k
    · simp [objSet, hk, getCachedSuggestions]
    · simp only [objSet, if_neg hk, getCachedSuggestions, if_neg hk]
      exact ih

/-- Removing the first `d` keys of a key-unique map is dropping its first
`d` entries. -/
theorem filter_remove_take (m : CacheMap) (d : Nat)
    (h : (m.map (·.1)).Nodup) :
    m.filter (fun p => !((m.map (·.1)).take d).contains p.1) = m.drop d := by
  induction m generalizing d with
  | nil => simp
  | cons p tl ih =>
    simp only [List.map_cons, List.nodup_cons, List.mem_map] at h
    cases d with
    | zero => simp
    | succ d =>
      simp only [List.map_cons, List.take_succ_cons, List.drop_succ_cons]
      rw [List.filter_cons]
      have hp : (!(p.1 :: (tl.map (·.1)).take d).contains p.1) = false := by
        simp [List.contains_cons]
      rw [hp]
      simp only [Bool.false_eq_true, if_false]
      have hcongr : tl.filter (fun q => !((p.1 :: (tl.map (·.1)).take d).contains q.1)) =
          tl.filter (fun q => !(((tl.map (·.1))).take d).contains q.1) := by
        apply List.filter_congr
        intro q hq
        have hne : q.1 ≠ p.1 := by
          intro he
          exact h.1 ⟨q, hq, he⟩
        simp [List.contains_cons, hne]
      rw [hcongr, ih d h.2]

end SeenosPM

namespace SeenosPM

/-- A key absent from the front part is looked up in the appended entry. -/
theorem get_append_not_mem (m : CacheMap) (k : String) (v : List Suggestion)
    (h : k ∉ m.map (·.1)) :
    getCachedSuggestions k (m ++ [(k, v)]) = some v := by
  induction m with
  | nil => simp [getCachedSuggestions]
  | cons p tl ih =>
    obtain ⟨k0, v0⟩ := p
    simp only [List.map_cons, List.mem_cons] at h
    push_neg at h
    simp only [List.cons_append, getCachedSuggestions]
    rw [if_neg (Ne.symm h.1)]
    exact ih h.2

/-- The key list of `objSet` is unchanged or extended by the new key, so
key-uniqueness is preserved. -/
theorem objSet_keys_nodup (m : CacheMap) (k : String) (v : List Suggestion)
    (h : (m.map (·.1)).Nodup) : ((objSet m k v).map (·.1)).Nodup := by
  by_cases hk : k ∈ m.map (·.1)
  · rw [objSet_keys_mem m k v hk]; exact h
  · rw [objSet_not_mem m k v hk]
    simp only [List.map_append, List.map_cons, List.map_nil]
    exact List.Nodup.append h (List.nodup_singleton k) (by simpa using hk)

/-- Shared workhorse for the cache claims: capacity bound, the
drop-the-oldest characterization of eviction, and the write/read round
trip from an in-capacity state. -/
theorem save_spec (m : CacheMap) (k : String) (v : List Suggestion)
    (hnd : (m.map (·.1)).Nodup) :
    (saveSuggestionsToCache k v m).length ≤ 50 ∧
    saveSuggestionsToCache k v m = (objSet m k v).drop ((objSet m k v).length - 50) ∧
    (m.length ≤ 50 → getCachedSuggestions k (saveSuggestionsToCache k v m) = some v) := by
  have hnd2 : ((objSet m k v).map (·.1)).Nodup := objSet_keys_nodup m k v hnd
  have hlenkeys : ((objSet m k v).map (·.1)).length = (objSet m k v).length :=
    List.length_map _ _
  have hsave : saveSuggestionsToCache k v m =
      (objSet m k v).drop ((objSet m k v).length - 50) := by
    unfold saveSuggestionsToCache
    by_cases hbig : 50 < ((objSet m k v).map (·.1)).length
    · rw [if_pos hbig]
      rw [hlenkeys]
      exact filter_remove_take (objSet m k v) ((objSet m k v).length - 50) hnd2
    · rw [if_neg hbig]
      rw [hlenkeys] at hbig
      have : (objSet m k v).length - 50 = 0 := by omega
      rw [this, List.drop_zero]
  refine ⟨?_, hsave, ?_⟩
  · rw [hsave, List.length_drop]
    omega
  · intro hcap
    by_cases hk : k ∈ m.map (·.1)
    · have hlen : (objSet m k v).length = m.length := by
        have := objSet_keys_mem m k v hk
        have h1 := congrArg List.length this
        simpa [List.length_map] using h1
      rw [hsave, hlen]
      have : m.length - 50 = 0 := by omega
      rw [this, List.drop_zero]
      exact get_objSet m k v
    · have happ : objSet m k v = m ++ [(k, v)] := objSet_not_mem m k v hk
      have hlen : (objSet m k v).length = m.length + 1 := by
        rw [happ]; simp
      rw [hsave, hlen, happ]
      rcases Nat.lt_or_ge m.length 50 with hlt | hge
      · have : m.length + 1 - 50 = 0 := by omega
        rw [this, List.drop_zero]
        exact get_append_not_mem m k v hk
      · have hm50 : m.length = 50 := by omega
        have : m.length + 1 - 50 = 1 := by omega
        rw [this, List.drop_append_of_le_length (by omega)]
        apply get_append_not_mem
        intro hmem
        rw [List.map_drop] at hmem
        exact hk (List.drop_subset _ _ hmem)

/-! ## Claim C8: cache round trip, capacity, oldest-first eviction -/

/-- C8: on a key-unique cache, a save leaves at most 50 entries; the saved
map is exactly the updated map with its oldest (earliest-inserted) entries
dropped down to capacity (so the evicted keys are precisely the
oldest-inserted ones); and, from any in-capacity state, reading the written
key returns the written set. -/
theorem cache_roundtrip_capacity (m : CacheMap) (k : String) (v : List Suggestion)
    (hnd : (m.map (·.1)).Nodup) :
    (saveSuggestionsToCache k v m).length ≤ 50 ∧
    saveSuggestionsToCache k v m = (objSet m k v).drop ((objSet m k v).length - 50) ∧
    (m.length ≤ 50 → getCachedSuggestions k (saveSuggestionsToCache k v m) = some v) :=
  save_spec m k v hnd

/-- Witness for C8: a concrete write/read round trip. -/
theorem cache_roundtrip_capacity_witness :
    getCachedSuggestions "t1_m1"
      (saveSuggestionsToCache "t1_m1" [⟨"s", "f"⟩] [("t1_m0", [])]) =
      some [⟨"s", "f"⟩] ∧
    (saveSuggestionsToCache "t1_m1" [⟨"s", "f"⟩] [("t1_m0", [])]).length ≤ 50 := by
  have h := cache_roundtrip_capacity [("t1_m0", [])] "t1_m1" [⟨"s", "f"⟩] (by decide)
  exact ⟨h.2.2 (by decide), h.1⟩

end SeenosPM

namespace SeenosPM

/-! ## Claim C10: a failed generation caches the fallback under the miss key -/

/-- C10: when the key misses and generation falls back to the defaults, the
default set is persisted under the miss key before being returned, so every
later load of that key is a cache hit (returning the cached defaults and
leaving the cache unchanged) and generation is never consulted again for
that key. -/
theorem fallback_cached_on_miss (cache : CacheMap) (key : String) (resp : GenResponse)
    (hnd : (cache.map (·.1)).Nodup) (hcap : cache.length ≤ 50)
    (hmiss : getCachedSuggestions key cache = none)
    (hfail : generateSuggestionsWithLLM resp = DEFAULT_SUGGESTIONS) :
    (loadSuggestions cache key resp).1 = DEFAULT_SUGGESTIONS ∧
    getCachedSuggestions key (loadSuggestions cache key resp).2 = some DEFAULT_SUGGESTIONS ∧
    ∀ resp2, loadSuggestions (loadSuggestions cache key resp).2 key resp2 =
      (DEFAULT_SUGGESTIONS, (loadSuggestions cache key resp).2) := by
  have hload : loadSuggestions cache key resp =
      (DEFAULT_SUGGESTIONS, saveSuggestionsToCache key DEFAULT_SUGGESTIONS cache) := by
    unfold loadSuggestions
    rw [hmiss, hfail]
  have hget : getCachedSuggestions key (loadSuggestions cache key resp).2 =
      some DEFAULT_SUGGESTIONS := by
    rw [hload]
    exact (save_spec cache key DEFAULT_SUGGESTIONS hnd).2.2 hcap
  refine ⟨by rw [hload], hget, ?_⟩
  intro resp2
  set st2 := (loadSuggestions cache key resp).2 with hst2
  show loadSuggestions st2 key resp2 = (DEFAULT_SUGGESTIONS, st2)
  unfold loadSuggestions
  rw [hget]

/-- Witness for C10: a concrete miss followed by a failing generation is a
hit on the next load. -/
theorem fallback_cached_on_miss_witness :
    (loadSuggestions [] "new_m1" .transportError).1 = DEFAULT_SUGGESTIONS ∧
    getCachedSuggestions "new_m1" (loadSuggestions [] "new_m1" .transportError).2 =
      some DEFAULT_SUGGESTIONS := by
  have h := fallback_cached_on_miss [] "new_m1" .transportError
    (by decide) (by decide) (by decide) rfl
  exact ⟨h.1, h.2.1⟩

end SeenosPM

namespace SeenosPM

/-! ## Claim C9: the sub-agent deriver is a pure projection of the ToolCalls -/

/-- C9: the derived sub-agent list contains exactly the view models of the
ToolCalls named `task` whose `subagent_type` argument is present and truthy
(truthiness already excludes the empty string and `null`, making the
source's extra comparisons redundant); each view model carries the
ToolCall's id, the delegation target as the displayed agent name
(`subAgentName`), the args as input, the result as output when a truthy
result is present, and the ToolCall's status.  The projection reads nothing
but the ToolCall list. -/
theorem subAgents_projection (tcs : List DToolCall) (sa : SubAgent) :
    sa ∈ subAgents tcs ↔
      ∃ tc ∈ tcs, tc.name = "task" ∧
        ∃ a, tc.args.get "subagent_type" = some a ∧ a.truthy = true ∧
          sa.id = tc.id ∧ sa.name = "task" ∧ sa.subAgentName = a ∧
          sa.input = tc.args ∧ sa.status = tc.status ∧
          sa.output = (match tc.result with
                       | some r => if r = "" then none else some r
                       | none => none) := by
  unfold subAgents
  rw [List.mem_map]
  constructor
  · rintro ⟨tc, htc, hsa⟩
    obtain ⟨hmem, hfil⟩ := List.mem_filter.mp htc
    unfold subAgentFilter at hfil
    simp only [Bool.and_eq_true, decide_eq_true_eq] at hfil
    obtain ⟨⟨⟨hname, htruthy⟩, _⟩, _⟩ := hfil
    cases hget : tc.args.get "subagent_type" with
    | none => rw [hget] at htruthy; exact absurd htruthy (by simp [optTruthy])
    | some a =>
      refine ⟨tc, hmem, hname, a, hget, ?_, ?_⟩
      · rw [hget] at htruthy; simpa [optTruthy] using htruthy
      · subst hsa
        unfold toSubAgent
        rw [hname, hget]
        simp
  · rintro ⟨tc, hmem, hname, a, hget, htruthy, hid, hsaname, hagent, hinput, hstatus, houtput⟩
    refine ⟨tc, List.mem_filter.mpr ⟨hmem, ?_⟩, ?_⟩
    · unfold subAgentFilter
      simp only [Bool.and_eq_true, decide_eq_true_eq]
      refine ⟨⟨⟨hname, by simp [optTruthy, hget, htruthy]⟩, ?_⟩, ?_⟩
      · rw [hget]
        intro hcon
        have : a = JVal.str "" := by injection hcon
        rw [this] at htruthy
        simp [JVal.truthy] at htruthy
      · rw [hget]
        intro hcon
        have : a = JVal.null := by injection hcon
        rw [this] at htruthy
        simp [JVal.truthy] at htruthy
    · cases sa
      unfold toSubAgent
      rw [hget]
      simp only at hid hsaname hagent hinput hstatus houtput
      subst hid hsaname hagent hinput hstatus houtput
      rw [hname]
      simp

/-- Witness for C9: a concrete delegation call is projected. -/
theorem subAgents_projection_witness :
    (⟨some "t1", "task", .str "seo", JVal.objOf [("subagent_type", .str "seo")],
      some "done", .pending⟩ : SubAgent) ∈
      subAgents [⟨some "t1", "task", JVal.objOf [("subagent_type", .str "seo")],
        .pending, some "done"⟩] := by
  apply (subAgents_projection _ _).mpr
  refine ⟨_, List.mem_singleton.mpr rfl, rfl, .str "seo", by decide, by decide,
    rfl, rfl, rfl, rfl, rfl, by decide⟩

end SeenosPM

namespace SeenosPM

/-! ## Claim C4: tool-call shape dispatch and field resolution -/

/-- A truthy first operand wins `||`. -/
theorem strOr_truthy (s : String) (b : Option String) (h : s ≠ "") :
    strOr (some s) b = some s := by
  simp [strOr, h]

/-- A falsy first operand defers to the second. -/
theorem strOr_falsy (a : Option String) (b : Option String) (h : strFalsy a) :
    strOr a b = b := by
  rcases h with h | h <;> subst h <;> simp [strOr]

/-- A truthy first operand wins `||` (values). -/
theorem jvalOr_truthy (v : JVal) (b : JVal) (h : v.truthy = true) :
    jvalOr (some v) b = v := by
  simp [jvalOr, h]

/-- A falsy first operand defers to the second (values). -/
theorem jvalOr_falsy (a : Option JVal) (b : JVal) (h : jvFalsy a) :
    jvalOr a b = b := by
  cases a with
  | none => rfl
  | some v =>
    have hv : v.truthy = false := h
    simp [jvalOr, hv]

/-- C4 counterexample: on a message whose `additional_kwargs.tool_calls` is
present but empty while `tool_calls` holds one invocation, the first
non-empty shape is the `tool_calls` array, yet extraction follows the first
*present* shape and yields nothing. -/
theorem toolcall_shape_counterexample :
    firstNonEmptyShape mC4 = some [rawSearch] ∧ toolCallsInMessage mC4 = [] := by
  decide

/-- C4 amended: extraction dispatches on the first *present* array-valued
shape — `additional_kwargs.tool_calls` verbatim, else `tool_calls` filtered
of empty-named entries, else the `tool_use` blocks of an array content, else
nothing — and each invocation's name resolves in priority order from the
explicit function name, the bare name field, then the block type tag
(skipping absent or empty-string fields), defaulting to `"unknown"`; args
resolve analogously from `arguments`, `args`, then `input` (skipping absent
or falsy values), defaulting to the empty object. -/
theorem toolcalls_extraction_amended (m : Message) :
    (∀ l, m.addKwToolCalls = some l → toolCallsInMessage m = l) ∧
    (m.addKwToolCalls = none → ∀ l, m.toolCalls = some l →
      toolCallsInMessage m = l.filter fun tc => tc.name ≠ some "") ∧
    (m.addKwToolCalls = none → m.toolCalls = none → ∀ bs, m.content = .blocks bs →
      toolCallsInMessage m = (bs.filter fun b => b.btype = "tool_use").map blockToRaw) ∧
    (m.addKwToolCalls = none → m.toolCalls = none → ∀ s, m.content = .str s →
      toolCallsInMessage m = []) ∧
    (∀ tc : RawToolCall,
      (∀ s, tc.funcName = some s → s ≠ "" → resolveName tc = s) ∧
      (strFalsy tc.funcName → ∀ s, tc.name = some s → s ≠ "" → resolveName tc = s) ∧
      (strFalsy tc.funcName → strFalsy tc.name → ∀ s, tc.btype = some s → s ≠ "" →
        resolveName tc = s) ∧
      (strFalsy tc.funcName → strFalsy tc.name → strFalsy tc.btype →
        resolveName tc = "unknown")) ∧
    (∀ tc : RawToolCall,
      (∀ a, tc.funcArguments = some a → a.truthy = true → resolveArgs tc = a) ∧
      (jvFalsy tc.funcArguments → ∀ a, tc.args = some a → a.truthy = true →
        resolveArgs tc = a) ∧
      (jvFalsy tc.funcArguments → jvFalsy tc.args → ∀ a, tc.input = some a →
        a.truthy = true → resolveArgs tc = a) ∧
      (jvFalsy tc.funcArguments → jvFalsy tc.args → jvFalsy tc.input →
        resolveArgs tc = .onil)) := by
  refine ⟨?_, ?_, ?_, ?_, ?_, ?_⟩
  · intro l h
    unfold toolCallsInMessage
    rw [h]
  · intro h1 l h2
    unfold toolCallsInMessage
    rw [h1, h2]
  · intro h1 h2 bs h3
    unfold toolCallsInMessage
    rw [h1, h2, h3]
  · intro h1 h2 s h3
    unfold toolCallsInMessage
    rw [h1, h2, h3]
  · intro tc
    refine ⟨?_, ?_, ?_, ?_⟩
    · intro s h hs
      unfold resolveName
      rw [h, strOr_truthy s _ hs]
      rfl
    · intro hf s h hs
      unfold resolveName
      rw [strOr_falsy _ _ hf, h, strOr_truthy s _ hs]
      rfl
    · intro hf hn s h hs
      unfold resolveName
      rw [strOr_falsy _ _ hf, strOr_falsy _ _ hn, h]
      simp [strOr, hs]
    · intro hf hn hb
      unfold resolveName
      rw [strOr_falsy _ _ hf, strOr_falsy _ _ hn]
      rcases hb with hb | hb <;> rw [hb] <;> rfl
  · intro tc
    refine ⟨?_, ?_, ?_, ?_⟩
    · intro a h ha
      unfold resolveArgs
      rw [h, jvalOr_truthy a _ ha]
    · intro hf a h ha
      unfold resolveArgs
      rw [jvalOr_falsy _ _ hf, h, jvalOr_truthy a _ ha]
    · intro hf hg a h ha
      unfold resolveArgs
      rw [jvalOr_falsy _ _ hf, jvalOr_falsy _ _ hg, h, jvalOr_truthy a _ ha]
    · intro hf hg hi
      unfold resolveArgs
      rw [jvalOr_falsy _ _ hf, jvalOr_falsy _ _ hg, jvalOr_falsy _ _ hi]

/-- Witness for C4 at a concrete message and invocation. -/
theorem toolcalls_extraction_amended_witness :
    toolCallsInMessage mC4w = [rawSearch] ∧ resolveName rawSearch = "search" := by
  constructor
  · exact (toolcalls_extraction_amended mC4w).1 [rawSearch] rfl
  · exact ((toolcalls_extraction_amended mC4w).2.2.2.2.1 rawSearch).2.1
      (Or.inl rfl) "search" rfl (by decide)

end SeenosPM

namespace SeenosPM

/-! ## Claim C3: tool-result reconciliation -/

/-- `completeFirst` misses a list without the reference id. -/
theorem completeFirst_eq_none (ref txt : String) (l : List DToolCall)
    (h : ∀ tc ∈ l, tc.id ≠ some ref) : completeFirst ref txt l = none := by
  induction l with
  | nil => rfl
  | cons tc tl ih =>
    unfold completeFirst
    rw [if_neg (h tc (List.mem_cons_self tc tl))]
    rw [ih fun tc2 h2 => h tc2 (List.mem_cons_of_mem tc h2)]
    rfl

/-- `completeFirst` rewrites exactly the first matching call, whatever its
current status. -/
theorem completeFirst_decompose (ref txt : String) (tpre tpost : List DToolCall)
    (tc : DToolCall) (hpre : ∀ tc2 ∈ tpre, tc2.id ≠ some ref) (hid : tc.id = some ref) :
    completeFirst ref txt (tpre ++ tc :: tpost) =
      some (tpre ++ { tc with status := .completed, result := some txt } :: tpost) := by
  induction tpre with
  | nil =>
    unfold completeFirst
    rw [List.nil_append, List.nil_append]
    simp [hid]
  | cons tc0 tl ih =>
    unfold completeFirst
    rw [List.cons_append]
    have h0 : tc0.id ≠ some ref := hpre tc0 (List.mem_cons_self tc0 tl)
    simp only [List.cons_append]
    rw [if_neg h0, ih fun tc2 h2 => hpre tc2 (List.mem_cons_of_mem tc0 h2)]
    rfl

/-- C3 amended: a tool result completes the first ToolCall (scanning entries
in insertion order, calls in order) whose id equals the reference —
regardless of that call's current status, so a duplicate result re-targets
the already-completed call and overwrites its result — and a reference that
matches no call id leaves the whole state unchanged, raising no error. -/
theorem tool_result_reconciliation_amended (st : EState) (ref txt : String) :
    ((∀ p ∈ st, ∀ tc ∈ p.2.toolCalls, tc.id ≠ some ref) →
      applyToolResult st ref txt = st) ∧
    (∀ (pre post : EState) (k : String) (e : Entry)
       (tpre tpost : List DToolCall) (tc : DToolCall),
      st = pre ++ (k, e) :: post →
      e.toolCalls = tpre ++ tc :: tpost →
      (∀ p ∈ pre, ∀ tc2 ∈ p.2.toolCalls, tc2.id ≠ some ref) →
      (∀ tc2 ∈ tpre, tc2.id ≠ some ref) →
      tc.id = some ref →
      applyToolResult st ref txt =
        pre ++ (k, ⟨e.message,
          tpre ++ { tc with status := .completed, result := some txt } :: tpost⟩) :: post) := by
  constructor
  · intro h
    induction st with
    | nil => rfl
    | cons p tl ih =>
      obtain ⟨k, e⟩ := p
      unfold applyToolResult
      rw [completeFirst_eq_none ref txt e.toolCalls
        (h (k, e) (List.mem_cons_self (k, e) tl))]
      rw [ih fun q hq => h q (List.mem_cons_of_mem (k, e) hq)]
  · intro pre post k e tpre tpost tc hst he hpre htpre hid
    subst hst
    induction pre with
    | nil =>
      rw [List.nil_append, List.nil_append]
      unfold applyToolResult
      rw [he, completeFirst_decompose ref txt tpre tpost tc htpre hid]
    | cons p0 pre' ih =>
      obtain ⟨k0, e0⟩ := p0
      rw [List.cons_append, List.cons_append]
      unfold applyToolResult
      rw [completeFirst_eq_none ref txt e0.toolCalls
        (hpre (k0, e0) (List.mem_cons_self (k0, e0) pre'))]
      rw [ih fun q hq => hpre q (List.mem_cons_of_mem (k0, e0) hq)]

/-- C3 counterexample: after a result `r1` completes `t1`, a duplicate
result `r2` for `t1` — which the claim requires to be a no-op, the call
being already completed — re-targets the same call and overwrites its
result with `r2`. -/
theorem tool_result_duplicate_counterexample :
    processedMap exC3 false =
      [("m1", ⟨exC3m1, [⟨some "t1", "search", .onil, .completed, some "r2"⟩]⟩)] := by
  decide

/-- Witness for C3 at a concrete one-entry state. -/
theorem tool_result_reconciliation_amended_witness :
    applyToolResult [("m1", ⟨exC3m1, [⟨some "t1", "search", .onil, .pending, none⟩]⟩)]
        "t1" "3 results" =
      [("m1", ⟨exC3m1, [⟨some "t1", "search", .onil, .completed, some "3 results"⟩]⟩)] := by
  have h := (tool_result_reconciliation_amended
    [("m1", ⟨exC3m1, [⟨some "t1", "search", .onil, .pending, none⟩]⟩)] "t1" "3 results").2
    [] [] "m1" ⟨exC3m1, [⟨some "t1", "search", .onil, .pending, none⟩]⟩
    [] [] ⟨some "t1", "search", .onil, .pending, none⟩
    rfl rfl (by intro p hp; cases hp) (by intro tc2 h2; cases h2) rfl
  simpa using h

end SeenosPM

namespace SeenosPM

/-! ## Claim C1: phase pairing -/

/-- Membership in a `Set.add`. -/
theorem mem_setAdd (l : List (Option JVal)) (x y : Option JVal) :
    x ∈ setAdd l y ↔ x ∈ l ∨ x = y := by
  unfold setAdd
  by_cases h : y ∈ l
  · rw [if_pos h]
    constructor
    · exact Or.inl
    · rintro (hx | rfl)
      · exact hx
      · exact h
  · rw [if_neg h]
    simp

/-- The last element of a cons as an `Option.or`. -/
theorem getLast?_cons_or {α : Type} (x : α) (l : List α) :
    (x :: l).getLast? = l.getLast?.or (some x) := by
  cases l with
  | nil => rfl
  | cons b t =>
    rw [List.getLast?_cons_cons]
    cases h : (b :: t).getLast? with
    | none => exact absurd h (by simp [List.getLast?_eq_getLast_of_ne_nil])
    | some y => rfl

/-- An element named by `getLast?` is a member. -/
theorem mem_of_getLast?_eq {α : Type} {l : List α} {x : α} (h : l.getLast? = some x) :
    x ∈ l := by
  obtain ⟨hne, hx⟩ := List.mem_getLast?_eq_getLast (show x ∈ l.getLast? by rw [h]; rfl)
  rw [hx]
  exact List.getLast_mem hne

/-- `completedPhases` from an arbitrary accumulator. -/
theorem completedPhases_fold_mem (recs : List (Nat × PhaseRec)) (acc : List (Option JVal))
    (v : Option JVal) :
    v ∈ recs.foldl
        (fun acc p =>
          if p.2.status = some (.str "completed") then setAdd acc p.2.phase else acc)
        acc ↔
      v ∈ acc ∨ ∃ p ∈ recs, p.2.phase = v ∧ p.2.status = some (.str "completed") := by
  induction recs generalizing acc with
  | nil => simp
  | cons p t ih =>
    rw [List.foldl_cons]
    by_cases hp : p.2.status = some (.str "completed")
    · rw [if_pos hp, ih, mem_setAdd]
      constructor
      · rintro ((hv | rfl) | ⟨q, hq, h1, h2⟩)
        · exact Or.inl hv
        · exact Or.inr ⟨p, List.mem_cons_self p t, rfl, hp⟩
        · exact Or.inr ⟨q, List.mem_cons_of_mem p hq, h1, h2⟩
      · rintro (hv | ⟨q, hq, h1, h2⟩)
        · exact Or.inl (Or.inl hv)
        · rcases List.mem_cons.mp hq with rfl | hq2
          · exact Or.inl (Or.inr h1.symm)
          · exact Or.inr ⟨q, hq2, h1, h2⟩
    · rw [if_neg hp, ih]
      constructor
      · rintro (hv | ⟨q, hq, h1, h2⟩)
        · exact Or.inl hv
        · exact Or.inr ⟨q, List.mem_cons_of_mem p hq, h1, h2⟩
      · rintro (hv | ⟨q, hq, h1, h2⟩)
        · exact Or.inl hv
        · rcases List.mem_cons.mp hq with rfl | hq2
          · exact absurd h2 hp
          · exact Or.inr ⟨q, hq2, h1, h2⟩

/-- The pairing fold from an arbitrary start: each component is the last
matching index, falling back to the start value. -/
theorem foldl_pairStep (v : Option JVal) (recs : List (Nat × PhaseRec))
    (a b : Option Nat) :
    recs.foldl (pairStep v) (a, b) =
      ((lastIdxWith recs v "started").or a, (lastIdxWith recs v "completed").or b) := by
  induction recs generalizing a b with
  | nil => simp [lastIdxWith]
  | cons p t ih =>
    rw [List.foldl_cons, ih]
    have hlast : ∀ st : String,
        lastIdxWith (p :: t) v st =
          if p.2.phase = v ∧ p.2.status = some (.str st) then
            (lastIdxWith t v st).or (some p.1)
          else lastIdxWith t v st := by
      intro st
      unfold lastIdxWith
      rw [List.filter_cons]
      by_cases hc : p.2.phase = v ∧ p.2.status = some (.str st)
      · rw [if_pos hc]
        have hb : (decide (p.2.phase = v) && decide (p.2.status = some (.str st))) = true := by
          simp [hc.1, hc.2]
        rw [hb]
        simp only [if_true]
        rw [List.map_cons, getLast?_cons_or]
      · rw [if_neg hc]
        have : (decide (p.2.phase = v) && decide (p.2.status = some (.str st))) = false := by
          rcases not_and_or.mp hc with h | h <;> simp [h]
        rw [this]
        simp
    unfold pairStep
    by_cases hph : p.2.phase = v
    · by_cases hs : p.2.status = some (.str "started")
      · have hnc : ¬ p.2.status = some (.str "completed") := by rw [hs]; decide
        rw [if_pos hph, if_pos hs]
        rw [hlast "started", if_pos ⟨hph, hs⟩, hlast "completed", if_neg (fun h => hnc h.2)]
        cases hlt : lastIdxWith t v "started" <;> simp [Option.or]
      · by_cases hcp : p.2.status = some (.str "completed")
        · rw [if_pos hph, if_neg hs, if_pos hcp]
          rw [hlast "started", if_neg (fun h => hs h.2), hlast "completed", if_pos ⟨hph, hcp⟩]
          cases hlt : lastIdxWith t v "completed" <;> simp [Option.or]
        · rw [if_pos hph, if_neg hs, if_neg hcp]
          rw [hlast "started", if_neg (fun h => hs h.2),
            hlast "completed", if_neg (fun h => hcp h.2)]
    · rw [if_neg hph]
      rw [hlast "started", if_neg (fun h => hph h.1), hlast "completed",
        if_neg (fun h => hph h.1)]

/-- C1 amended: a phase is resolved exactly when it has at least one
`completed` record (`error` records never resolve a phase); the pairing
takes the LAST `started` index and the LAST `completed` index of the phase,
in either order; and a phase missing either index hides nothing. -/
theorem phase_pairing_amended (msgs : List Message) (v : Option JVal) :
    (v ∈ completedPhases msgs ↔
      ∃ p ∈ phaseRecords msgs, p.2.phase = v ∧ p.2.status = some (.str "completed")) ∧
    findPair (phaseRecords msgs) v =
      (lastIdxWith (phaseRecords msgs) v "started",
       lastIdxWith (phaseRecords msgs) v "completed") ∧
    ((lastIdxWith (phaseRecords msgs) v "started" = none ∨
      lastIdxWith (phaseRecords msgs) v "completed" = none) →
      phaseSkips msgs (phaseRecords msgs) v = []) := by
  have hpair : findPair (phaseRecords msgs) v =
      (lastIdxWith (phaseRecords msgs) v "started",
       lastIdxWith (phaseRecords msgs) v "completed") := by
    unfold findPair
    rw [foldl_pairStep]
    cases lastIdxWith (phaseRecords msgs) v "started" <;>
      cases lastIdxWith (phaseRecords msgs) v "completed" <;> rfl
  refine ⟨?_, hpair, ?_⟩
  · unfold completedPhases
    rw [completedPhases_fold_mem]
    simp
  · intro h
    unfold phaseSkips
    rw [hpair]
    rcases h with h | h
    · rw [h]
    · rw [h]
      cases lastIdxWith (phaseRecords msgs) v "started" <;> rfl

/-- Witness for C1: a phase whose last record is an `error` has no completed
index, hence hides nothing. -/
theorem phase_pairing_amended_witness :
    phaseSkips exC1err (phaseRecords exC1err) (some (.num 1)) = [] := by
  apply (phase_pairing_amended exC1err (some (.num 1))).2.2
  right
  decide

/-- C1 counterexample.  (i) In `exC1a` the only completion precedes the
start, so the claim demands the phase be treated as unresolved and hide
nothing, yet the started marker at index 1 is hidden.  (ii) In `exC1b` the
claim's earliest-started / earliest-subsequent-completed pairing is (0, 1),
yet the code pairs the LAST started with the LAST completed, (2, 3).
(iii) In `exC1err` the claim counts the `error` record as resolving the
phase (pairing (0, 1) and hiding index 0), yet the code resolves nothing
and hides nothing. -/
theorem phase_pairing_counterexample :
    1 ∈ skipList exC1a ∧
    findPair (phaseRecords exC1b) (some (.num 1)) = (some 2, some 3) ∧
    skipList exC1err = [] := by
  decide

end SeenosPM

namespace SeenosPM

/-! ## Claim C2: the skip set -/

/-- `Option.or` with a `none` fallback is the identity. -/
theorem option_or_none {α : Type} (a : Option α) : a.or none = a := by
  cases a <;> rfl

/-- A record index named by `phaseRecords` belongs to an agent message of
the list. -/
theorem phaseRecords_get (msgs : List Message) {i : Nat} {r : PhaseRec}
    (h : (i, r) ∈ phaseRecords msgs) :
    ∃ m, msgs.get? i = some m ∧ m.mtype = .ai ∧
      phaseRecordOf (extractString m.content) = some r := by
  unfold phaseRecords at h
  obtain ⟨⟨j, m⟩, hmem, hf⟩ := List.mem_filterMap.mp h
  by_cases hai : m.mtype = .ai
  · rw [if_pos hai] at hf
    cases hrec : phaseRecordOf (extractString m.content) with
    | none => rw [hrec] at hf; cases hf
    | some r0 =>
      rw [hrec] at hf
      obtain ⟨h1, h2⟩ := Prod.mk.injEq .. ▸ Option.some.injEq .. ▸ hf
      · refine ⟨m, ?_, hai, ?_⟩
        · rw [← h1]
          exact List.mem_enum_iff_get?.mp hmem
        · rw [hrec, h2]
  · rw [if_neg hai] at hf
    cases hf

/-- The started index of a computed pair is a record index. -/
theorem findPair_started_mem (recs : List (Nat × PhaseRec)) (v : Option JVal)
    {s : Nat} {c : Option Nat} (h : findPair recs v = (some s, c)) :
    ∃ r, (s, r) ∈ recs := by
  unfold findPair at h
  rw [foldl_pairStep, option_or_none, option_or_none] at h
  have hs : lastIdxWith recs v "started" = some s := congrArg Prod.fst h
  unfold lastIdxWith at hs
  have hmem := mem_of_getLast?_eq hs
  obtain ⟨⟨i, r⟩, hmem2, hi⟩ := List.mem_map.mp hmem
  have hi2 : i = s := hi
  subst hi2
  exact ⟨r, List.mem_of_mem_filter hmem2⟩

/-- Membership in one phase's skip contribution. -/
theorem phaseSkips_mem (msgs : List Message) (recs : List (Nat × PhaseRec))
    (v : Option JVal) (k : Nat) :
    k ∈ phaseSkips msgs recs v ↔
      ∃ s c, findPair recs v = (some s, some c) ∧
        (k = s ∨ (s < k ∧ k < c ∧ hideAt msgs k = true)) := by
  unfold phaseSkips
  generalize findPair recs v = ab
  obtain ⟨a, b⟩ := ab
  cases a with
  | none => simp
  | some s0 =>
    cases b with
    | none => simp
    | some c0 =>
      simp only [List.mem_cons, List.mem_filter, List.mem_range'_1]
      constructor
      · rintro (hk | ⟨hr, hh⟩)
        · exact ⟨s0, c0, rfl, Or.inl hk⟩
        · exact ⟨s0, c0, rfl, Or.inr ⟨by omega, by omega, hh⟩⟩
      · rintro ⟨s, c, heq, hor⟩
        have hs' : s0 = s := by
          have := congrArg Prod.fst heq
          simpa using this
        have hc' : c0 = c := by
          have := congrArg Prod.snd heq
          simpa using this
        subst hs' hc'
        rcases hor with rfl | ⟨h1, h2, h3⟩
        · exact Or.inl rfl
        · exact Or.inr ⟨⟨by omega, by omega⟩, h3⟩

/-- C2 amended: an index is hidden exactly when some completed phase's
computed pair covers it: the started index itself, or a strictly
in-between agent message whose three raw tool-call shapes are all empty
(the code tests the raw shapes, not the derived ToolCall list); and
`tool_result` messages are never hidden. -/
theorem skip_set_amended (msgs : List Message) (k : Nat) :
    (k ∈ skipList msgs ↔
      ∃ v ∈ completedPhases msgs, ∃ s c,
        findPair (phaseRecords msgs) v = (some s, some c) ∧
        (k = s ∨ (s < k ∧ k < c ∧ hideAt msgs k = true))) ∧
    (∀ m, msgs.get? k = some m → m.mtype = .tool → k ∉ skipList msgs) := by
  have hchar : k ∈ skipList msgs ↔
      ∃ v ∈ completedPhases msgs, ∃ s c,
        findPair (phaseRecords msgs) v = (some s, some c) ∧
        (k = s ∨ (s < k ∧ k < c ∧ hideAt msgs k = true)) := by
    unfold skipList
    rw [List.mem_flatMap]
    constructor
    · rintro ⟨v, hv, hk⟩
      exact ⟨v, hv, (phaseSkips_mem msgs (phaseRecords msgs) v k).mp hk⟩
    · rintro ⟨v, hv, hrest⟩
      exact ⟨v, hv, (phaseSkips_mem msgs (phaseRecords msgs) v k).mpr hrest⟩
  refine ⟨hchar, ?_⟩
  intro m hm htool hk
  obtain ⟨v, _, s, c, hpair, hor⟩ := hchar.mp hk
  rcases hor with rfl | ⟨_, _, hh⟩
  · obtain ⟨r, hr⟩ := findPair_started_mem (phaseRecords msgs) v hpair
    obtain ⟨m2, hm2, hai, _⟩ := phaseRecords_get msgs hr
    rw [hm] at hm2
    have hmm : m = m2 := by injection hm2
    rw [← hmm, htool] at hai
    cases hai
  · unfold hideAt at hh
    rw [hm] at hh
    simp only [Bool.and_eq_true, decide_eq_true_eq] at hh
    rw [htool] at hh
    cases hh.1

/-- Witness for C2: the narrative message of Scenario A is hidden. -/
theorem skip_set_amended_witness : 2 ∈ skipList scenA := by
  apply (skip_set_amended scenA 2).1.mpr
  exact ⟨some (.num 1), by decide, 1, 3, by decide, Or.inr (by decide)⟩

/-- C2 counterexample: in `exC2` the in-between agent message derives zero
ToolCalls (its only raw entry has an empty name, which extraction drops),
so the claim requires index 1 to be hidden; but the hiding test looks at the
raw `tool_calls` array, which is non-empty, so only the started marker
(index 0) is hidden and index 1 stays visible. -/
theorem skip_set_counterexample :
    deriveToolCalls false exC2m1 = [] ∧
    findPair (phaseRecords exC2) (some (.num 1)) = (some 0, some 2) ∧
    skipList exC2 = [0] := by
  decide

end SeenosPM

namespace SeenosPM

/-! ## Claim C6: phase detail reconstruction -/

/-- The backward scan finds exactly the largest qualifying index below the
bound. -/
theorem findStartedBefore_spec (msgs : List Message) (ph : Option JVal) :
    ∀ n s, findStartedBefore msgs ph n = some s ↔
      (s < n ∧ startedCheckAt msgs ph s = true ∧
        ∀ j, s < j → j < n → startedCheckAt msgs ph j = false) := by
  intro n
  induction n with
  | zero => intro s; simp [findStartedBefore]
  | succ n ih =>
    intro s
    unfold findStartedBefore
    by_cases hc : startedCheckAt msgs ph n = true
    · rw [if_pos hc]
      constructor
      · intro h
        have hsn : n = s := by injection h
        subst hsn
        exact ⟨Nat.lt_succ_self n, hc, fun j h1 h2 => by omega⟩
      · rintro ⟨h1, h2, h3⟩
        by_cases hsn : s = n
        · rw [hsn]
        · have hlt : s < n := by omega
          have := h3 n hlt (Nat.lt_succ_self n)
          rw [hc] at this
          cases this
    · rw [if_neg hc]
      rw [ih s]
      constructor
      · rintro ⟨h1, h2, h3⟩
        refine ⟨by omega, h2, fun j hj1 hj2 => ?_⟩
        by_cases hjn : j = n
        · rw [hjn]
          exact Bool.not_eq_true _ ▸ hc
        · exact h3 j hj1 (by omega)
      · rintro ⟨h1, h2, h3⟩
        have hsn : s ≠ n := by
          intro he
          rw [he] at h2
          exact hc h2
        exact ⟨by omega, h2, fun j hj1 hj2 => h3 j hj1 (by omega)⟩

/-- C6 amended: for a completed phase marker message at (first-matching)
index `c` whose phase has a preceding `started` marker, the detail view is
the blank-line join, in stream order, of the normalized texts of exactly
the agent messages strictly between the paired indices that are not
themselves (truthy) phase markers and have non-empty trimmed text — whether
hidden or visible (tool-call-bearing messages stay visible yet still
contribute their text) — or `null` when no text was collected; and the
paired `started` index is the NEAREST preceding qualifying marker (the
largest index below `c` passing the started check). -/
theorem phase_details_amended (msgs : List Message) (m : Message) (pv : JVal)
    (c s : Nat)
    (hai : m.mtype = .ai)
    (hparse : parsePhaseStatusCM (extractString m.content) = some pv)
    (htruthy : pv.truthy = true)
    (hstatus : pv.get "status" = some (.str "completed"))
    (hfind : msgs.findIdx? (fun x => x.id = m.id) = some c)
    (hstart : findStartedBefore msgs (pv.get "phase") c = some s) :
    phaseDetails msgs m =
      (if detailTexts msgs s c = [] then none
       else some (String.intercalate "\n\n" (detailTexts msgs s c))) ∧
    (s < c ∧ startedCheckAt msgs (pv.get "phase") s = true ∧
      ∀ j, s < j → j < c → startedCheckAt msgs (pv.get "phase") j = false) := by
  constructor
  · have hlen : msgs.length ≠ 0 := by
      intro h0
      rw [List.length_eq_zero.mp h0] at hfind
      cases hfind
    unfold phaseDetails
    rw [hai, if_neg (by decide : ¬ (MType.ai = MType.human)), hparse]
    dsimp only
    rw [htruthy, Bool.not_true]
    rw [if_neg (by decide : ¬ ((false : Bool) = true))]
    rw [hstatus]
    rw [if_neg (by simp : ¬ (some (JVal.str "completed") ≠ some (JVal.str "completed")))]
    rw [if_neg hlen, hfind]
    dsimp only
    rw [hstart]
    dsimp only
    cases h : detailTexts msgs s c with
    | nil => simp [h]
    | cons t ts => simp [h]
  · exact (findStartedBefore_spec msgs (pv.get "phase") c s).mp hstart

/-- Witness for C6: Scenario A.  Expanding phase 1 shows `"working..."`,
and the visible list is the human greeting plus the phase-1 marker. -/
theorem phase_details_amended_witness :
    phaseDetails scenA scenAm3 = some "working..." ∧
    (visibleMessages scenA).map (·.id) = ["m0", "m3"] := by
  constructor
  · have h := (phase_details_amended scenA scenAm3
      (JVal.objOf [("phase", .num 1), ("status", .str "completed"), ("summary", .str "done")])
      3 1 (by decide) (by decide) (by decide) (by decide) (by decide) (by decide)).1
    rw [h]
    decide
  · decide

/-- C6 counterexample: in `exC6` the in-between agent message carries a tool
call, so it is NOT hidden (the skip set holds only the started marker,
index 0), yet its text appears in the detail view — the detail view is not
the join of the hidden messages' texts (which would be empty here). -/
theorem phase_details_counterexample :
    phaseDetails exC6 exC6m2 = some "used tool" ∧
    skipList exC6 = [0] ∧ (1 : Nat) ∉ skipList exC6 := by
  decide

end SeenosPM

namespace SeenosPM

/-! ## Claim C5: idempotence of the derivation pass

The map-building fold only ever (a) wholesale-(re)sets entries keyed by
message id and (b) completes tool calls, which touches nothing but `status`
and `result`.  Running the fold a second time, starting from its own output
instead of the empty map, re-sets every entry and re-applies every result
to the same slots, reproducing the same final state.  The lemmas below
establish the mask/keys invariants and the append decompositions; the
absorption lemma `run_absorb` carries the induction. -/

/-- Keys distribute over append. -/
theorem stKeys_append (S R : EState) : stKeys (S ++ R) = stKeys S ++ stKeys R :=
  List.map_append _ _ _

/-- A state has as many keys as entries. -/
theorem stKeys_length (st : EState) : (stKeys st).length = st.length :=
  List.length_map _ _

/-- The mask determines the keys. -/
theorem maskState_keys (st : EState) : (maskState st).map (·.1) = stKeys st := by
  unfold maskState stKeys
  rw [List.map_map]
  rfl

/-- The mask has the state's length. -/
theorem maskState_length (st : EState) : (maskState st).length = st.length :=
  List.length_map _ _

/-- Masking commutes with `drop`. -/
theorem maskState_drop (st : EState) (n : Nat) :
    maskState (st.drop n) = (maskState st).drop n := by
  unfold maskState
  exact List.map_drop ..

/-- An empty mask means an empty state. -/
theorem maskState_eq_nil {st : EState} (h : maskState st = []) : st = [] := by
  have := maskState_length st
  rw [h] at this
  exact List.length_eq_zero.mp this.symm

/-- `completeFirst` only changes `status`/`result`. -/
theorem completeFirst_maskCall (ref txt : String) :
    ∀ l l2, completeFirst ref txt l = some l2 → l2.map maskCall = l.map maskCall := by
  intro l
  induction l with
  | nil => intro l2 h; cases h
  | cons tc tl ih =>
    intro l2 h
    unfold completeFirst at h
    by_cases hid : tc.id = some ref
    · rw [if_pos hid] at h
      have h2 : l2 = { tc with status := .completed, result := some txt } :: tl := by
        injection h with h3
        exact h3.symm
      rw [h2, List.map_cons, List.map_cons]
      rfl
    · rw [if_neg hid] at h
      cases hrec : completeFirst ref txt tl with
      | none => rw [hrec] at h; cases h
      | some tl2 =>
        rw [hrec] at h
        have h2 : l2 = tc :: tl2 := by
          injection h with h3
          exact h3.symm
        rw [h2, List.map_cons, List.map_cons, ih tl2 hrec]

/-- Reconciliation preserves the mask. -/
theorem applyToolResult_mask (st : EState) (ref txt : String) :
    maskState (applyToolResult st ref txt) = maskState st := by
  induction st with
  | nil => rfl
  | cons p tl ih =>
    obtain ⟨k, e⟩ := p
    unfold applyToolResult
    cases hc : completeFirst ref txt e.toolCalls with
    | some tcs =>
      unfold maskState maskEntry
      rw [List.map_cons, List.map_cons]
      have := completeFirst_maskCall ref txt e.toolCalls tcs hc
      simp only [this]
    | none =>
      unfold maskState at ih ⊢
      rw [List.map_cons, List.map_cons]
      rw [ih]

/-- Reconciliation preserves the keys. -/
theorem applyToolResult_keys (st : EState) (ref txt : String) :
    stKeys (applyToolResult st ref txt) = stKeys st := by
  rw [← maskState_keys, ← maskState_keys, applyToolResult_mask]

/-- Reconciliation preserves the length. -/
theorem applyToolResult_length (st : EState) (ref txt : String) :
    (applyToolResult st ref txt).length = st.length := by
  rw [← stKeys_length, ← stKeys_length, applyToolResult_keys]

/-- With no matching id anywhere, reconciliation is the identity. -/
theorem applyToolResult_no_match (st : EState) (ref txt : String)
    (h : stHasMatch st ref = false) : applyToolResult st ref txt = st := by
  induction st with
  | nil => rfl
  | cons p tl ih =>
    obtain ⟨k, e⟩ := p
    unfold stHasMatch at h
    rw [List.any_cons] at h
    have h1 := Bool.or_eq_false_iff.mp h
    have hcf : completeFirst ref txt e.toolCalls = none := by
      apply completeFirst_eq_none
      intro tc htc heq
      have : e.toolCalls.any (fun tc => decide (tc.id = some ref)) = true :=
        List.any_eq_true.mpr ⟨tc, htc, decide_eq_true heq⟩
      rw [this] at h1
      cases h1.1
    unfold applyToolResult
    rw [hcf, ih h1.2]

/-- `completeFirst` misses exactly when no id matches. -/
theorem completeFirst_none_iff (ref txt : String) (l : List DToolCall) :
    completeFirst ref txt l = none ↔ ∀ tc ∈ l, tc.id ≠ some ref := by
  induction l with
  | nil =>
    constructor
    · intro _ tc h
      exact absurd h (List.not_mem_nil tc)
    · intro _
      rfl
  | cons tc tl ih =>
    unfold completeFirst
    by_cases hid : tc.id = some ref
    · rw [if_pos hid]
      constructor
      · intro h; cases h
      · intro hall
        exact absurd hid (hall tc (List.mem_cons_self tc tl))
    · rw [if_neg hid]
      cases hrec : completeFirst ref txt tl with
      | some tl2 =>
        constructor
        · intro h
          exact Option.noConfusion h
        · intro hall
          exfalso
          have h1 : ¬ (completeFirst ref txt tl = none) := by
            rw [hrec]
            exact fun hx => Option.noConfusion hx
          have h2 : ¬ ∀ tc2 ∈ tl, tc2.id ≠ some ref := fun hall2 => h1 (ih.mpr hall2)
          push_neg at h2
          obtain ⟨tc2, htc2, heq2⟩ := h2
          exact (hall tc2 (List.mem_cons_of_mem tc htc2)) heq2
      | none =>
        constructor
        · intro _ tc2 htc2
          rcases List.mem_cons.mp htc2 with h | htl
          · rw [h]; exact hid
          · exact (ih.mp hrec) tc2 htl
        · intro _; rfl

/-- One tool-result step on a cons state with a missing head. -/
theorem applyToolResult_cons_none (k : String) (e : Entry) (tl : EState)
    (ref txt : String) (hc : completeFirst ref txt e.toolCalls = none) :
    applyToolResult ((k, e) :: tl) ref txt = (k, e) :: applyToolResult tl ref txt := by
  show (match completeFirst ref txt e.toolCalls with
    | some tcs => (k, { e with toolCalls := tcs }) :: tl
    | none => (k, e) :: applyToolResult tl ref txt) =
      (k, e) :: applyToolResult tl ref txt
  rw [hc]

/-- One tool-result step on a cons state with a matching head. -/
theorem applyToolResult_cons_some (k : String) (e : Entry) (tl : EState)
    (ref txt : String) (tcs : List DToolCall)
    (hc : completeFirst ref txt e.toolCalls = some tcs) :
    applyToolResult ((k, e) :: tl) ref txt =
      (k, { e with toolCalls := tcs }) :: tl := by
  show (match completeFirst ref txt e.toolCalls with
    | some tcs => (k, { e with toolCalls := tcs }) :: tl
    | none => (k, e) :: applyToolResult tl ref txt) =
      (k, { e with toolCalls := tcs }) :: tl
  rw [hc]

/-- A match inside the left part keeps the right part untouched. -/
theorem applyToolResult_append_left (S R : EState) (ref txt : String)
    (h : stHasMatch S ref = true) :
    applyToolResult (S ++ R) ref txt = applyToolResult S ref txt ++ R := by
  induction S with
  | nil => cases h
  | cons p tl ih =>
    obtain ⟨k, e⟩ := p
    rw [List.cons_append]
    cases hc : completeFirst ref txt e.toolCalls with
    | some tcs =>
      rw [applyToolResult_cons_some k e (tl ++ R) ref txt tcs hc,
        applyToolResult_cons_some k e tl ref txt tcs hc, List.cons_append]
    | none =>
      have htl : stHasMatch tl ref = true := by
        unfold stHasMatch at h
        rw [List.any_cons] at h
        rcases Bool.or_eq_true_iff.mp h with he | htl2
        · exfalso
          obtain ⟨tc, htc, hp⟩ := List.any_eq_true.mp he
          have hmatch : tc.id = some ref := of_decide_eq_true hp
          exact ((completeFirst_none_iff ref txt e.toolCalls).mp hc) tc htc hmatch
        · exact htl2
      rw [applyToolResult_cons_none k e (tl ++ R) ref txt hc,
        applyToolResult_cons_none k e tl ref txt hc, ih htl, List.cons_append]

/-- No match in the left part sends the update into the right part. -/
theorem applyToolResult_append_right (S R : EState) (ref txt : String)
    (h : stHasMatch S ref = false) :
    applyToolResult (S ++ R) ref txt = S ++ applyToolResult R ref txt := by
  induction S with
  | nil => rfl
  | cons p tl ih =>
    obtain ⟨k, e⟩ := p
    unfold stHasMatch at h
    rw [List.any_cons] at h
    have h1 := Bool.or_eq_false_iff.mp h
    have hcf : completeFirst ref txt e.toolCalls = none := by
      apply (completeFirst_none_iff ref txt e.toolCalls).mpr
      intro tc htc heq
      have hany : e.toolCalls.any (fun tc => decide (tc.id = some ref)) = true :=
        List.any_eq_true.mpr ⟨tc, htc, decide_eq_true heq⟩
      rw [hany] at h1
      cases h1.1
    rw [List.cons_append, applyToolResult_cons_none k e (tl ++ R) ref txt hcf,
      ih h1.2, List.cons_append]

/-- Keys of a cons state. -/
theorem stKeys_cons (p : String × Entry) (tl : EState) :
    stKeys (p :: tl) = p.1 :: stKeys tl := rfl

/-- `setEntry` on a key of the left part leaves the right part alone. -/
theorem setEntry_mem_append (S R : EState) (k : String) (e : Entry)
    (h : k ∈ stKeys S) : setEntry (S ++ R) k e = setEntry S k e ++ R := by
  induction S with
  | nil => cases h
  | cons p tl ih =>
    obtain ⟨k0, e0⟩ := p
    rw [List.cons_append]
    unfold setEntry
    by_cases hk : k0 = k
    · rw [if_pos hk, if_pos hk, List.cons_append]
    · rw [if_neg hk, if_neg hk, List.cons_append]
      rw [stKeys_cons, List.mem_cons] at h
      rcases h with h | h
      · exact absurd h.symm hk
      · rw [ih h]

/-- `setEntry` on a fresh key appends. -/
theorem setEntry_not_mem (S : EState) (k : String) (e : Entry)
    (h : k ∉ stKeys S) : setEntry S k e = S ++ [(k, e)] := by
  induction S with
  | nil => rfl
  | cons p tl ih =>
    obtain ⟨k0, e0⟩ := p
    rw [stKeys_cons, List.mem_cons] at h
    push_neg at h
    unfold setEntry
    rw [if_neg (Ne.symm h.1), List.cons_append]
    rw [ih h.2]

/-- `setEntry` replaces the head of the right part when its key is fresh on
the left and heads the right. -/
theorem setEntry_head_append (S R : EState) (k : String) (e e0 : Entry)
    (h : k ∉ stKeys S) :
    setEntry (S ++ (k, e0) :: R) k e = S ++ (k, e) :: R := by
  induction S with
  | nil =>
    rw [List.nil_append, List.nil_append]
    unfold setEntry
    rw [if_pos rfl]
  | cons p tl ih =>
    obtain ⟨k0, e1⟩ := p
    rw [stKeys_cons, List.mem_cons] at h
    push_neg at h
    rw [List.cons_append, List.cons_append]
    unfold setEntry
    rw [if_neg (Ne.symm h.1)]
    rw [ih h.2]

/-- Keys after `setEntry` on a present key. -/
theorem setEntry_keys_mem (S : EState) (k : String) (e : Entry)
    (h : k ∈ stKeys S) : stKeys (setEntry S k e) = stKeys S := by
  induction S with
  | nil => cases h
  | cons p tl ih =>
    obtain ⟨k0, e0⟩ := p
    unfold setEntry
    by_cases hk : k0 = k
    · rw [if_pos hk, stKeys_cons, stKeys_cons]
      rw [hk]
    · rw [if_neg hk, stKeys_cons, stKeys_cons]
      rw [stKeys_cons, List.mem_cons] at h
      rcases h with h | h
      · exact absurd h.symm hk
      · rw [ih h]

/-- Length after `setEntry` on a present key. -/
theorem setEntry_length_mem (S : EState) (k : String) (e : Entry)
    (h : k ∈ stKeys S) : (setEntry S k e).length = S.length := by
  rw [← stKeys_length, ← stKeys_length, setEntry_keys_mem S k e h]

/-- The step on an agent message. -/
theorem procStep_ai (intr : Bool) (st : EState) (m : Message) (h : m.mtype = .ai) :
    procStep intr st m = setEntry st m.id ⟨m, deriveToolCalls intr m⟩ := by
  unfold procStep
  rw [h]

/-- The step on a human message. -/
theorem procStep_human (intr : Bool) (st : EState) (m : Message) (h : m.mtype = .human) :
    procStep intr st m = setEntry st m.id ⟨m, []⟩ := by
  unfold procStep
  rw [h]

/-- The step on a tool message with a usable reference. -/
theorem procStep_tool (intr : Bool) (st : EState) (m : Message) (ref : String)
    (h : m.mtype = .tool) (h2 : m.toolCallId = some ref) (h3 : ref ≠ "") :
    procStep intr st m = applyToolResult st ref (extractString m.content) := by
  unfold procStep
  rw [h, h2]
  dsimp only
  rw [if_neg h3]

/-- The step on a tool message without a usable reference. -/
theorem procStep_tool_skip (intr : Bool) (st : EState) (m : Message)
    (h : m.mtype = .tool) (h2 : m.toolCallId = none ∨ m.toolCallId = some "") :
    procStep intr st m = st := by
  unfold procStep
  rcases h2 with h2 | h2 <;> rw [h, h2] <;> dsimp only
  rw [if_pos rfl]

/-- The step on any other message type. -/
theorem procStep_other (intr : Bool) (st : EState) (m : Message) (h : m.mtype = .other) :
    procStep intr st m = st := by
  unfold procStep
  rw [h]

/-- Keys after `setEntry` (both cases). -/
theorem setEntry_keys (st : EState) (k : String) (e : Entry) :
    stKeys (setEntry st k e) = stKeys st ∨
      (k ∉ stKeys st ∧ stKeys (setEntry st k e) = stKeys st ++ [k]) := by
  by_cases hk : k ∈ stKeys st
  · exact Or.inl (setEntry_keys_mem st k e hk)
  · refine Or.inr ⟨hk, ?_⟩
    rw [setEntry_not_mem st k e hk, stKeys_append]
    rfl

/-- One step extends the keys by at most the message id. -/
theorem procStep_keys (intr : Bool) (st : EState) (m : Message) :
    stKeys (procStep intr st m) = stKeys st ∨
      (m.id ∉ stKeys st ∧ stKeys (procStep intr st m) = stKeys st ++ [m.id]) := by
  cases hm : m.mtype with
  | ai =>
    rw [procStep_ai intr st m hm]
    exact setEntry_keys st m.id _
  | human =>
    rw [procStep_human intr st m hm]
    exact setEntry_keys st m.id _
  | tool =>
    cases hid : m.toolCallId with
    | none => rw [procStep_tool_skip intr st m hm (Or.inl hid)]; exact Or.inl rfl
    | some ref =>
      by_cases href : ref = ""
      · rw [href] at hid
        rw [procStep_tool_skip intr st m hm (Or.inr hid)]
        exact Or.inl rfl
      · rw [procStep_tool intr st m ref hm hid href]
        exact Or.inl (applyToolResult_keys st ref _)
  | other =>
    rw [procStep_other intr st m hm]
    exact Or.inl rfl

/-- One step keeps the keys unique. -/
theorem procStep_keys_nodup (intr : Bool) (st : EState) (m : Message)
    (h : (stKeys st).Nodup) : (stKeys (procStep intr st m)).Nodup := by
  rcases procStep_keys intr st m with heq | ⟨hnm, heq⟩
  · rw [heq]; exact h
  · rw [heq]
    rw [List.nodup_append]
    refine ⟨h, List.nodup_singleton _, ?_⟩
    intro a ha hmem
    rw [List.mem_singleton] at hmem
    rw [hmem] at ha
    exact hnm ha

/-- The fold only appends keys. -/
theorem foldl_keys_ext (intr : Bool) (l : List Message) :
    ∀ S : EState, ∃ ext, stKeys (l.foldl (procStep intr) S) = stKeys S ++ ext := by
  induction l with
  | nil => intro S; exact ⟨[], by simp⟩
  | cons m t ih =>
    intro S
    rw [List.foldl_cons]
    obtain ⟨ext, hext⟩ := ih (procStep intr S m)
    rcases procStep_keys intr S m with heq | ⟨_, heq⟩
    · exact ⟨ext, by rw [hext, heq]⟩
    · exact ⟨[m.id] ++ ext, by rw [hext, heq, List.append_assoc]⟩

/-- The fold keeps the keys unique. -/
theorem foldl_keys_nodup (intr : Bool) (l : List Message) :
    ∀ S : EState, (stKeys S).Nodup → (stKeys (l.foldl (procStep intr) S)).Nodup := by
  induction l with
  | nil => intro S h; exact h
  | cons m t ih =>
    intro S h
    rw [List.foldl_cons]
    exact ih _ (procStep_keys_nodup intr S m h)

end SeenosPM

namespace SeenosPM

/-- The `setEntry` case of the absorption argument: re-setting a key into
the extended state either rewrites the same slot of the front part, or
replaces the stale head of the back part, whose key must be the fresh key
(it heads the keys the first run will append next). -/
theorem run_absorb_set (intr : Bool) (t : List Message)
    (ih : ∀ S R : EState, (stKeys (S ++ R)).Nodup →
      maskState R = maskState ((t.foldl (procStep intr) S).drop S.length) →
      t.foldl (procStep intr) (S ++ R) = t.foldl (procStep intr) S)
    (S R : EState) (k : String) (e : Entry)
    (hnd : (stKeys (S ++ R)).Nodup)
    (hmask : maskState R =
      maskState ((t.foldl (procStep intr) (setEntry S k e)).drop S.length)) :
    t.foldl (procStep intr) (setEntry (S ++ R) k e) =
      t.foldl (procStep intr) (setEntry S k e) := by
  by_cases hk : k ∈ stKeys S
  · rw [setEntry_mem_append S R k e hk]
    apply ih (setEntry S k e) R
    · rw [stKeys_append, setEntry_keys_mem S k e hk]
      rw [stKeys_append] at hnd
      exact hnd
    · rw [setEntry_length_mem S k e hk]
      exact hmask
  · have hS2 : setEntry S k e = S ++ [(k, e)] := setEntry_not_mem S k e hk
    obtain ⟨ext, hext⟩ := foldl_keys_ext intr t (setEntry S k e)
    have hsk : stKeys (setEntry S k e) = stKeys S ++ [k] := by
      rw [hS2, stKeys_append]
      rfl
    have hkeysdrop :
        stKeys ((t.foldl (procStep intr) (setEntry S k e)).drop S.length) = k :: ext := by
      have h1 : stKeys ((t.foldl (procStep intr) (setEntry S k e)).drop S.length) =
          (stKeys (t.foldl (procStep intr) (setEntry S k e))).drop S.length :=
        List.map_drop ..
      rw [h1, hext, hsk, List.append_assoc, ← stKeys_length S, List.drop_left]
      rfl
    have hRkeys : stKeys R = k :: ext := by
      have h2 := congrArg (List.map (·.1)) hmask
      rw [maskState_keys, maskState_keys] at h2
      rw [h2, hkeysdrop]
    cases R with
    | nil => cases hRkeys
    | cons p R2 =>
      obtain ⟨k0, e0⟩ := p
      have hk0 : k0 = k := by
        rw [stKeys_cons] at hRkeys
        injection hRkeys
      rw [hk0] at hnd hmask ⊢
      rw [setEntry_head_append S R2 k e e0 hk]
      have hsplit : S ++ (k, e) :: R2 = (S ++ [(k, e)]) ++ R2 := by
        rw [List.append_assoc]
        rfl
      rw [hsplit, ← hS2]
      apply ih (setEntry S k e) R2
      · rw [stKeys_append, hS2, stKeys_append]
        rw [stKeys_append, stKeys_cons] at hnd
        rw [List.append_assoc]
        simpa using hnd
      · have hlen2 : (setEntry S k e).length = S.length + 1 := by
          rw [hS2, List.length_append]
          rfl
        rw [hlen2]
        have h3 : (maskState ((k, e0) :: R2)).tail = maskState R2 := rfl
        rw [← h3, hmask, maskState_drop, List.tail_drop, ← maskState_drop]

/-- Absorption: running the fold over a state extended by entries that
mask-match what the fold itself is about to produce yields the plain run's
result. -/
theorem run_absorb (intr : Bool) (l : List Message) :
    ∀ S R : EState, (stKeys (S ++ R)).Nodup →
      maskState R = maskState ((l.foldl (procStep intr) S).drop S.length) →
      l.foldl (procStep intr) (S ++ R) = l.foldl (procStep intr) S := by
  induction l with
  | nil =>
    intro S R hnd hmask
    rw [List.foldl_nil] at hmask
    rw [List.foldl_nil, List.foldl_nil]
    have hR : R = [] := by
      apply maskState_eq_nil
      rw [hmask, List.drop_length]
      rfl
    rw [hR, List.append_nil]
  | cons m t ih =>
    intro S R hnd hmask
    rw [List.foldl_cons] at hmask
    rw [List.foldl_cons, List.foldl_cons]
    cases hm : m.mtype with
    | ai =>
      rw [procStep_ai intr S m hm] at hmask
      rw [procStep_ai intr (S ++ R) m hm, procStep_ai intr S m hm]
      exact run_absorb_set intr t ih S R m.id ⟨m, deriveToolCalls intr m⟩ hnd hmask
    | human =>
      rw [procStep_human intr S m hm] at hmask
      rw [procStep_human intr (S ++ R) m hm, procStep_human intr S m hm]
      exact run_absorb_set intr t ih S R m.id ⟨m, []⟩ hnd hmask
    | other =>
      rw [procStep_other intr S m hm] at hmask
      rw [procStep_other intr (S ++ R) m hm, procStep_other intr S m hm]
      exact ih S R hnd hmask
    | tool =>
      cases hid : m.toolCallId with
      | none =>
        rw [procStep_tool_skip intr S m hm (Or.inl hid)] at hmask
        rw [procStep_tool_skip intr (S ++ R) m hm (Or.inl hid),
          procStep_tool_skip intr S m hm (Or.inl hid)]
        exact ih S R hnd hmask
      | some ref =>
        by_cases href : ref = ""
        · rw [href] at hid
          rw [procStep_tool_skip intr S m hm (Or.inr hid)] at hmask
          rw [procStep_tool_skip intr (S ++ R) m hm (Or.inr hid),
            procStep_tool_skip intr S m hm (Or.inr hid)]
          exact ih S R hnd hmask
        · rw [procStep_tool intr S m ref hm hid href] at hmask
          rw [procStep_tool intr (S ++ R) m ref hm hid href,
            procStep_tool intr S m ref hm hid href]
          by_cases hmatch : stHasMatch S ref = true
          · rw [applyToolResult_append_left S R ref _ hmatch]
            apply ih (applyToolResult S ref (extractString m.content)) R
            · rw [stKeys_append, applyToolResult_keys]
              rw [stKeys_append] at hnd
              exact hnd
            · rw [applyToolResult_length]
              exact hmask
          · have hno : stHasMatch S ref = false := by
              rwa [Bool.not_eq_true] at hmatch
            rw [applyToolResult_append_right S R ref _ hno,
              applyToolResult_no_match S ref _ hno]
            rw [applyToolResult_no_match S ref _ hno] at hmask
            apply ih S (applyToolResult R ref (extractString m.content))
            · rw [stKeys_append, applyToolResult_keys]
              rw [stKeys_append] at hnd
              exact hnd
            · rw [applyToolResult_mask]
              exact hmask

/-- C5: re-running the full derivation pass over the same (visible) message
list with the same interrupt state, starting from its own output instead of
the empty map, reproduces exactly the same map — in particular every
ToolCall's status and result is identical — and the skip set, a pure
function of the message list, is unchanged.  Within a pass a status only
moves from `pending`/`interrupted` to `completed`; the second pass rewrites
the same values into the same slots. -/
theorem derivation_idempotent (msgs : List Message) (intr : Bool) :
    (visibleMessages msgs).foldl (procStep intr) (processedMap msgs intr) =
      processedMap msgs intr := by
  have h := run_absorb intr (visibleMessages msgs) []
    ((visibleMessages msgs).foldl (procStep intr) [])
    (by
      rw [List.nil_append]
      exact foldl_keys_nodup intr (visibleMessages msgs) [] List.nodup_nil)
    (by
      rw [List.length_nil, List.drop_zero])
  rw [List.nil_append] at h
  exact h

end SeenosPM
